import Mathlib

/-!
Shallow embedding of src/icsmap.c (an open-addressing hash map with linear
probing, tombstone deletion and prime-capacity resizing) together with proofs
settling the frozen claims about it.

Modelling conventions, fixed once for the whole file:

* A byte is a `Nat` (callers only ever store values `< 256`); a memory region
  is a `List Nat`.
* `uint32_t` arithmetic is `Nat` arithmetic with an explicit `% 4294967296`
  exactly where the C expression can wrap (`hash << 4`, `i*i`, `i += 6`,
  `++prime`, `x * 100`, `capacity * 2`).
* A slot of the storage array (`map_entry *arr`) is `Slot`: `NULL` is
  `Slot.empty`, the sentinel `(map_entry)0xffffffff` is `Slot.tomb`, and an
  allocated record is `Slot.occ r` where `r` carries the record's key half and
  value half as byte lists.
* `find_key` (unlike `find_hole`) performs no `is_deleted` check and therefore
  reads key bytes through the tombstone sentinel pointer `0xffffffff`; that
  read is undefined behaviour in C.  We model the bytes that such a read
  yields as an explicit parameter `junk : List Nat` threaded through
  `find_key` and its callers, so theorems can quantify over what the invalid
  read returns.  `free` on the sentinel (in `icsmap_remove`) and an
  out-of-bounds probe are modelled as `none` (the execution is lost).
* C loops without a structural bound are given fuel.  `find_hole`'s loop
  either exits within `capacity` iterations or revisits its start slot in an
  unchanged state and hence cycles forever; so fuel `capacity` is exact and
  a `none` result of `find_hole` models non-termination of the C loop.
  `find_key`'s loop breaks after a full cycle, so fuel `capacity + 1` always
  suffices (proved below).  The trial-division loop of `ics_is_prime` and the
  do-while of `ics_next_prime` get fuels `n` and `2^32`; all theorems below
  operate in ranges where the loops exit well before the fuel.
* `assert` is modelled as a no-op (NDEBUG semantics); where an assertion is
  in fact violated by an execution this is spelled out in the theorems.
* The user-supplied key resolver `get_key_fn` receives a pointer to a key
  region of `keysize` bytes; we model it as a pure function on the bytes of
  that region.
* `malloc` outcomes are explicit `Bool` parameters (`true` = allocation
  succeeds); `free` is a no-op in the model.
-/

/-- The modulus of `uint32_t` arithmetic. -/
def U32 : Nat := 4294967296

/-- `ics_status` of icsmap.h. -/
inductive ics_status where
  | ICS_OK
  | ICS_FAILURE
  | ICS_NO_MEMORY
  | ICS_NOT_FOUND
  | ICS_EXISTS
deriving DecidableEq, Repr

export ics_status (ICS_OK ICS_FAILURE ICS_NO_MEMORY ICS_NOT_FOUND ICS_EXISTS)

/-- One allocated record: `keysize` key bytes followed by `valsize` value
bytes (`map_entry` in the C source, with its two halves split). -/
structure map_rec where
  key : List Nat
  val : List Nat
deriving DecidableEq, Repr

/-- One cell of the storage array: `NULL`, the tombstone sentinel
`(map_entry)0xffffffff`, or a pointer to an allocated record. -/
inductive Slot where
  | empty
  | tomb
  | occ (r : map_rec)
deriving DecidableEq, Repr

/-- `struct icsmap`.  The resolver field is the C function pointer
`get_key_fn`, modelled as a pure function on the key-region bytes. -/
structure icsmap where
  size : Nat
  capacity : Nat
  keysize : Nat
  valsize : Nat
  get_key : Option (List Nat → List Nat)
  arr : List Slot

/-- `ics_percent(x, y) = x * 100 / y` in `uint32_t` arithmetic. -/
def ics_percent (x y : Nat) : Nat := x * 100 % U32 / y

/-- `ics_equal(a, b, len)`: byte-wise comparison of the first `len` bytes of
two regions.  Reading past the end of a region would be undefined behaviour
in C; the model returns `0` for such bytes. -/
def ics_equal (a b : List Nat) (len : Nat) : Bool :=
  (List.range len).all fun i => a.getD i 0 == b.getD i 0

/-- `ics_is_prime`'s trial-division loop
`for (i = 5; i*i <= n; i += 6) ...` in `uint32_t` arithmetic, with fuel. -/
def is_prime_loop (n : Nat) : Nat → Nat → Bool
  | _, 0 => false
  | i, fuel + 1 =>
    if i * i % U32 ≤ n then
      (if n % i = 0 || n % (i + 2) = 0 then false
       else is_prime_loop n ((i + 6) % U32) fuel)
    else true

/-- `ics_is_prime(n)` from icsmap.c (note: it reports `2` as not prime,
because the `n % 2 == 0` test precedes any small-prime case for `2`). -/
def ics_is_prime (n : Nat) : Bool :=
  if n ≤ 1 then false
  else if n = 3 then true
  else if n % 2 = 0 || n % 3 = 0 then false
  else is_prime_loop n 5 n

/-- The do-while of `ics_next_prime`: increment (with `uint32_t` wraparound),
then test, with fuel.  Fuel exhaustion yields `0` (never reached in the
ranges the theorems below use). -/
def next_prime_loop : Nat → Nat → Nat
  | 0, _ => 0
  | fuel + 1, prime =>
    let p := (prime + 1) % U32
    if ics_is_prime p then p else next_prime_loop fuel p

/-- `ics_next_prime(start, res)`; the result `*res`. -/
def ics_next_prime (start : Nat) : Nat :=
  if start ≤ 1 then 2 else next_prime_loop U32 start

/-- The ELF/PJW-style rolling hash `hash_fn` over a byte view, in `uint32_t`
arithmetic. -/
def hash_fn (key : List Nat) : Nat :=
  key.foldl
    (fun h b =>
      let h1 := (h * 16 + b) % U32
      let x := h1 &&& 0xF0000000
      let h2 := if x ≠ 0 then h1 ^^^ (x >>> 24) else h1
      h2 &&& (0xFFFFFFFF ^^^ x))
    0

/-- `is_deleted(entry)`. -/
def is_deleted : Slot → Bool
  | Slot.tomb => true
  | _ => false

/-- `is_empty(entry)`. -/
def is_empty : Slot → Bool
  | Slot.empty => true
  | _ => false

/-- A slot holding a live record. -/
def is_occ : Slot → Bool
  | Slot.occ _ => true
  | _ => false

/-- `get_key(map, key, &size)`: resolve the byte view used for hashing and
equality.  With no resolver the view is the `keysize` bytes of the region;
with a resolver it is whatever the resolver computes from those bytes. -/
def get_key (m : icsmap) (key : List Nat) : List Nat :=
  match m.get_key with
  | none => key.take m.keysize
  | some f => f (key.take m.keysize)

/-- `hash(map, k, keysize, &res)`: hash of the resolved view, reduced modulo
the current capacity. -/
def hash (m : icsmap) (kv : List Nat) : Nat :=
  hash_fn kv % m.capacity

/-- `is_overloaded(map)`. -/
def is_overloaded (m : icsmap) : Bool :=
  33 < ics_percent m.size m.capacity

/-- The slot at index `i` (out-of-range reads yield `empty`; well-formed
states have `arr.length = capacity` so the probe loops never go
out of range). -/
def slotAt (m : icsmap) (i : Nat) : Slot :=
  m.arr.getD i Slot.empty

/-- The loop of `find_key`.  Each non-empty slot's key region is resolved and
compared — including tombstone slots, whose "key bytes" are whatever the
invalid read through the sentinel returns (`junk`).  The loop breaks after a
full cycle back to `start`.  `some (some i)` = found at `i`,
`some none` = `ICS_NOT_FOUND`, `none` = fuel exhausted (impossible with fuel
`capacity + 1`, proved below). -/
def find_key_loop (m : icsmap) (junk kv : List Nat) (start : Nat) :
    Nat → Nat → Option (Option Nat)
  | _, 0 => none
  | i, fuel + 1 =>
    match slotAt m i with
    | Slot.empty => some none
    | s =>
      let cand := match s with
        | Slot.occ r => get_key m r.key
        | _ => get_key m junk
      if ics_equal cand kv kv.length then some (some i)
      else
        let i2 := (i + 1) % m.capacity
        if i2 = start then some none
        else find_key_loop m junk kv start i2 fuel

/-- `find_key(map, key, &index)`. -/
def find_key (junk : List Nat) (m : icsmap) (key : List Nat) :
    Option (Option Nat) :=
  let kv := get_key m key
  let start := hash m kv
  find_key_loop m junk kv start start (m.capacity + 1)

/-- The loop of `find_hole`: stop at the first `Empty` (status `ICS_OK`),
at the first tombstone (status `ICS_OK` — the deleted check precedes the key
comparison), or at the first live slot whose resolved view equals the search
view (status `ICS_EXISTS`).  The C loop has no cycle check; if no exit
condition holds within `capacity` probes the C loop revisits its start in an
unchanged state and spins forever, which the model reports as `none`. -/
def find_hole_loop (m : icsmap) (kv : List Nat) :
    Nat → Nat → Option (ics_status × Nat)
  | _, 0 => none
  | i, fuel + 1 =>
    match slotAt m i with
    | Slot.empty => some (ICS_OK, i)
    | Slot.tomb => some (ICS_OK, i)
    | Slot.occ r =>
      if ics_equal (get_key m r.key) kv kv.length then some (ICS_EXISTS, i)
      else find_hole_loop m kv ((i + 1) % m.capacity) fuel

/-- `find_hole(map, key, &index)`. -/
def find_hole (m : icsmap) (key : List Nat) : Option (ics_status × Nat) :=
  let kv := get_key m key
  find_hole_loop m kv (hash m kv) m.capacity

/-- `icsmap_cfg`. -/
structure icsmap_cfg where
  keysize : Nat
  valsize : Nat
  get_key : Option (List Nat → List Nat)

/-- `icsmap_init` with both allocations succeeding: size 0, capacity the
initial prime 13, all slots `Empty`. -/
def icsmap_init (cfg : icsmap_cfg) : icsmap :=
  { size := 0
    capacity := 13
    keysize := cfg.keysize
    valsize := cfg.valsize
    get_key := cfg.get_key
    arr := List.replicate 13 Slot.empty }

/-- `init_map_entry(map, entry, key, val)`: a record whose two halves are the
`keysize`/`valsize` bytes copied from the caller's buffers. -/
def init_map_entry (m : icsmap) (key val : List Nat) : map_rec :=
  { key := key.take m.keysize, val := val.take m.valsize }

/-- The relocation loop of `resize`, walking the old array in storage order.
Each live record is re-holed against the new array; a non-`ICS_OK` status
(possible when two live records have equal resolved views) aborts the loop
and is returned with the map in its partially rebuilt state, exactly as the
C code does. -/
def rehash (acc : icsmap) : List Slot → Option (ics_status × icsmap)
  | [] => some (ICS_OK, acc)
  | Slot.empty :: rest => rehash acc rest
  | Slot.tomb :: rest => rehash acc rest
  | Slot.occ r :: rest =>
    match find_hole acc r.key with
    | none => none
    | some (st, j) =>
      if st = ICS_OK then
        rehash { acc with arr := acc.arr.set j (Slot.occ r) } rest
      else some (st, acc)

/-- `resize(map)`.  The new capacity is computed and assigned *before* the
allocation of the new slot array; on allocation failure the old array is
restored but the capacity is not (the partial mutation behind claims about
OutOfMemory).  `alloc` is the outcome of the `malloc` of the new array. -/
def resize (m : icsmap) (alloc : Bool) : Option (ics_status × icsmap) :=
  let newcap := ics_next_prime (m.capacity * 2 % U32)
  if alloc then
    rehash { m with capacity := newcap,
                    arr := List.replicate newcap Slot.empty } m.arr
  else some (ICS_NO_MEMORY, { m with capacity := newcap })

/-- `icsmap_put(handle, key, val)`.  `alloc_resize` is the outcome of the
`malloc` inside `resize` (if a resize is triggered), `alloc_entry` the
outcome of the record `malloc`.  `none` models a lost execution (the
`find_hole` loop cycling forever). -/
def icsmap_put (m : icsmap) (key val : List Nat)
    (alloc_resize alloc_entry : Bool) : Option (ics_status × icsmap) :=
  match (if is_overloaded m then resize m alloc_resize
         else some (ICS_OK, m)) with
  | none => none
  | some (st, m1) =>
    if st = ICS_OK then
      match find_hole m1 key with
      | none => none
      | some (ICS_EXISTS, idx) =>
        some (ICS_OK,
          { m1 with arr := m1.arr.set idx (Slot.occ (init_map_entry m1 key val)) })
      | some (_, idx) =>
        if alloc_entry then
          some (ICS_OK,
            { m1 with arr := m1.arr.set idx (Slot.occ (init_map_entry m1 key val)),
                      size := m1.size + 1 })
        else some (ICS_NO_MEMORY, m1)
    else some (st, m1)

/-- `icsmap_get(handle, key, out)`: status together with the bytes copied to
`out` (`none` if nothing was copied).  When `find_key` returns a tombstone
index, `map_entry_val` reads value bytes through the sentinel: the copied
bytes are then the corresponding slice of `junk`. -/
def icsmap_get (junk : List Nat) (m : icsmap) (key : List Nat) :
    Option (ics_status × Option (List Nat)) :=
  match find_key junk m key with
  | none => none
  | some none => some (ICS_NOT_FOUND, none)
  | some (some i) =>
    match slotAt m i with
    | Slot.occ r => some (ICS_OK, some (r.val.take m.valsize))
    | _ => some (ICS_OK, some ((junk.drop m.keysize).take m.valsize))

/-- `icsmap_remove(handle, key)`.  If `find_key` hands back a tombstone or
empty index, the C code calls `free` on a pointer that was never allocated
(the sentinel), which is fatal; the model reports `none` for that lost
execution. -/
def icsmap_remove (junk : List Nat) (m : icsmap) (key : List Nat) :
    Option (ics_status × icsmap) :=
  match find_key junk m key with
  | none => none
  | some none => some (ICS_NOT_FOUND, m)
  | some (some i) =>
    match slotAt m i with
    | Slot.occ _ =>
      some (ICS_OK, { m with arr := m.arr.set i Slot.tomb, size := m.size - 1 })
    | _ => none

/-- `icsmap_contains(handle, key)`. -/
def icsmap_contains (junk : List Nat) (m : icsmap) (key : List Nat) :
    Option ics_status :=
  match find_key junk m key with
  | none => none
  | some none => some ICS_NOT_FOUND
  | some (some _) => some ICS_EXISTS

/-- `icsmap_count(handle)`. -/
def icsmap_count (m : icsmap) : Nat := m.size

/-- `icsmap_foreach(handle, fn, data)`: fold the visitor over the live
entries in storage order. -/
def icsmap_foreach {α : Type} (m : icsmap) (fn : List Nat → List Nat → α → α)
    (data : α) : α :=
  m.arr.foldl
    (fun acc s =>
      match s with
      | Slot.occ r => fn r.key r.val acc
      | _ => acc)
    data

/-- The sequence of (key, value) pairs `icsmap_foreach` visits. -/
def foreach_visits (m : icsmap) : List (List Nat × List Nat) :=
  icsmap_foreach m (fun k v acc => acc ++ [(k, v)]) []

/-- `icsmap_all(handle, keys, vals)`: the bytes written to the two output
buffers (written densely at offsets `index * keysize` / `index * valsize`,
i.e. concatenated in storage order) together with the final `index`. -/
def icsmap_all (m : icsmap) : List Nat × List Nat × Nat :=
  m.arr.foldl
    (fun acc s =>
      match s with
      | Slot.occ r =>
        (acc.1 ++ r.key.take m.keysize, acc.2.1 ++ r.val.take m.valsize,
         acc.2.2 + 1)
      | _ => acc)
    ([], [], 0)

/-- Number of live slots in a storage array. -/
def occCount (l : List Slot) : Nat := l.countP fun s => is_occ s

/-- The live (key, value) pairs of a storage array in storage order. -/
def live_entries (l : List Slot) : List (List Nat × List Nat) :=
  l.filterMap fun s =>
    match s with
    | Slot.occ r => some (r.key, r.val)
    | _ => none

/-- Well-formedness of one slot: a live record carries exactly `keysize` key
bytes and `valsize` value bytes. -/
def slot_wf (ks vs : Nat) : Slot → Bool
  | Slot.occ r => r.key.length == ks && r.val.length == vs
  | _ => true

-- Sanity examples (concrete behaviour of the embedding on small inputs).
example : hash_fn [97] = 97 := by decide
example : ics_next_prime 26 = 29 := by decide
example : ics_is_prime 2 = false := by decide
example : ics_is_prime 29 = true := by decide

/-! ## Concrete executions used by the claims -/

/-- Thread a successful (`ICS_OK`, all allocations succeed) put through an
optional state; any other outcome loses the state. -/
def put_ok (om : Option icsmap) (k v : List Nat) : Option icsmap :=
  om.bind fun m =>
    match icsmap_put m k v true true with
    | some (ICS_OK, m') => some m'
    | _ => none

/-- Thread a successful remove (status `ICS_OK`) through an optional state. -/
def remove_ok (junk : List Nat) (om : Option icsmap) (k : List Nat) :
    Option icsmap :=
  om.bind fun m =>
    match icsmap_remove junk m k with
    | some (ICS_OK, m') => some m'
    | _ => none

/-- C10 run: keysize 1, valsize 4; put 'a'↦1, put 'b'↦2, put 'a'↦3. -/
def c10m : Option icsmap :=
  put_ok (put_ok (put_ok (some (icsmap_init ⟨1, 4, none⟩))
    [97] [1, 0, 0, 0]) [98] [2, 0, 0, 0]) [97] [3, 0, 0, 0]

/-- C1 run: keysize 1, valsize 1; 'a' (byte 97) and 'n' (byte 110) both hash
to slot 6 of the initial 13-slot array; after put 'a', put 'n', remove 'a'
the map holds a tombstone at slot 6 and the live record for 'n' at slot 7. -/
def c1pre : Option icsmap :=
  remove_ok [] (put_ok (put_ok (some (icsmap_init ⟨1, 1, none⟩))
    [97] [1]) [110] [2]) [97]

/-- C1 run continued: put 'n'↦3 on `c1pre`. -/
def c1post : Option icsmap := put_ok c1pre [110] [3]

/-- C2 run: put 'a', then remove 'a': slot 6 becomes a tombstone. -/
def c2pre : Option icsmap :=
  remove_ok [] (put_ok (some (icsmap_init ⟨1, 1, none⟩)) [97] [5]) [97]

/-- C5/C3 run: keysize 1, valsize 1; four puts of keys 0,1,2,3 (hashing to
slots 0..3) leave size 4, capacity 13, percent 30 — one insert below the
resize trigger. -/
def c5m4 : Option icsmap :=
  put_ok (put_ok (put_ok (put_ok (some (icsmap_init ⟨1, 1, none⟩))
    [0] [9]) [1] [9]) [2] [9]) [3] [9]

/-- C5/C3 run continued: the fifth put leaves size 5 (percent 38, overloaded). -/
def c5m5 : Option icsmap := put_ok c5m4 [4] [9]

/-- The post-state property claim C5 asserts of every successful put: the
integer load percentage is back at or below 33, or a resize happened during
that same call (a resize always changes `capacity`, here 13 → 29). -/
def c5_claim_check (m : icsmap) (k v : List Nat) : Bool :=
  match icsmap_put m k v true true with
  | some (ICS_OK, m') =>
    decide (ics_percent m'.size m'.capacity ≤ 33 ∨ m'.capacity ≠ m.capacity)
  | _ => true

/-- C4 resolver: a constant key view, making every key pointer resolve to the
same one-byte view (so all keys are one logical key). -/
def c4f : List Nat → List Nat := fun _ => [0]

/-- C4 run: with resolver `c4f`, put key bytes [1] ↦ value [7]; the record is
stored at slot 0 with key bytes [1]. -/
def c4m1 : Option icsmap :=
  put_ok (some (icsmap_init ⟨1, 1, some c4f⟩)) [1] [7]

/-- Claim C1 (code_bug evaluation): with a tombstone at slot 6 earlier in the
probe sequence than the live record for key 110 at slot 7, `icsmap_put` of
key 110 does *not* overwrite the live record: `find_hole` stops at the
tombstone, a second record for key 110 is inserted at slot 6, and `count`
grows from 1 to 2 — contradicting the claim (and the header's documented
"the value is overwritten" contract). -/
theorem C1_find_hole_stops_at_tombstone :
    c1pre.map (fun m => (m.size, slotAt m 6, slotAt m 7)) =
      some (1, Slot.tomb, Slot.occ ⟨[110], [2]⟩) ∧
    c1post.map (fun m => (m.size, slotAt m 6, slotAt m 7)) =
      some (2, Slot.occ ⟨[110], [3]⟩, Slot.occ ⟨[110], [2]⟩) := by
  constructor <;> decide

/-- Claim C2 (code_bug evaluation): `find_key` has no `is_deleted` check, so
on the state `remove 'a'` leaves behind it resolves and compares the "key
bytes" read through the tombstone sentinel (undefined behaviour in C,
modelled by the `junk` parameter).  If that invalid read yields byte 97 the
subsequent `get 'a'` reports `ICS_OK` at the tombstone slot and copies junk
value bytes out — not `ICS_NOT_FOUND` as the claim requires — and a repeated
`remove 'a'` calls `free` on the sentinel (a lost execution, `none`).  Only
when the junk bytes happen to differ from the searched key does the claimed
`ICS_NOT_FOUND` outcome occur. -/
theorem C2_find_key_compares_tombstone_bytes :
    c2pre.map (fun m => (m.size, slotAt m 6)) = some (0, Slot.tomb) ∧
    c2pre.bind (fun m => icsmap_get [97, 55] m [97]) =
      some (ICS_OK, some [55]) ∧
    (c2pre.bind fun m => icsmap_remove [97, 55] m [97]).isNone = true ∧
    c2pre.bind (fun m => icsmap_get [255, 0] m [97]) =
      some (ICS_NOT_FOUND, none) := by
  refine ⟨by decide, by decide, by decide, by decide⟩

/-- Claim C3 (code_bug evaluation): on the overloaded five-record state, a
put whose resize allocation fails returns `ICS_NO_MEMORY` — but the map's
capacity has already been bumped to 29 (the next prime above 2·13) while the
slot array is still the old 13-slot array; the claimed "no partial mutation"
is violated (and every later probe indexes out of the 13-slot array). -/
theorem C3_failed_resize_leaves_bumped_capacity :
    c5m5.map (fun m => (m.capacity, m.size, m.arr.length)) =
      some (13, 5, 13) ∧
    c5m5.bind (fun m =>
        (icsmap_put m [5] [9] false true).map fun r =>
          (r.1, r.2.capacity, r.2.size, r.2.arr.length)) =
      some (ICS_NO_MEMORY, 29, 5, 13) := by
  constructor <;> decide

/-- Claim C4 counterexample: with the constant resolver `c4f`, key pointers
[1] and [2] resolve to the same view, so the second put takes the
overwrite-in-place path (`count` stays 1) — but `init_map_entry` rewrites
the *key* bytes of the stored record from [1] to [2], contradicting "the
stored key bytes of that record … are unchanged". -/
theorem C4_counterexample :
    c4m1.map (fun m => (m.size, slotAt m 0)) =
      some (1, Slot.occ ⟨[1], [7]⟩) ∧
    c4m1.bind (fun m =>
        (icsmap_put m [2] [9] true true).map fun r =>
          (r.1, r.2.size, slotAt r.2 0)) =
      some (ICS_OK, 1, Slot.occ ⟨[2], [9]⟩) := by
  constructor <;> decide

/-- Claim C5 counterexample: the fifth put on a fresh map returns
success with count 5, capacity 13: the post-call load percentage is
5·100/13 = 38 > 33, yet no resize was performed during that call (capacity
is unchanged) — the claimed disjunction is false for this put.  (The resize
triggers one put later, when `is_overloaded` sees 38 > 33 on entry.) -/
theorem C5_counterexample :
    c5m4.map (fun m => c5_claim_check m [4] [9]) = some false ∧
    c5m5.map (fun m => (m.size, m.capacity, ics_percent m.size m.capacity)) =
      some (5, 13, 38) := by
  constructor <;> decide

/-- Claim C7 counterexample: `ics_next_prime` computes in `uint32_t`
arithmetic; starting from 4294967295 = 2^32 − 1 the candidate counter wraps
to 0 and the function returns 3, which is not a prime greater than the
starting value (no uint32 value is). -/
theorem C7_counterexample :
    ics_next_prime 4294967295 = 3 ∧ 3 < 4294967295 := by
  constructor <;> decide

/-! ## Correctness of the primality test and `ics_next_prime` (claim C7)

`ics_is_prime` is 6k±1 trial division in `uint32_t` arithmetic.  For
arguments up to `2^31` no intermediate `i*i` or `i + 6` wraps before the
loop exits, and the test agrees with genuine primality — except at `n = 2`,
which the code reports as not prime (the `n % 2 == 0` test precedes any
special case for 2).  `ics_next_prime` never queries the tester at 2 for
starts ≥ 2 and special-cases starts ≤ 1, so it still returns the least
prime above its argument throughout that range. -/

/-- If some pair `(d, d+2)` with `d ≡ 5 (mod 6)`, `d*d ≤ n < 2^32` kills `n`
by divisibility, the trial-division loop answers `false` from any aligned
start at or below `d`. -/
lemma is_prime_loop_kill (n d : Nat) (hd6 : d % 6 = 5) (hdn : d * d ≤ n)
    (hn : n < U32) (hdvd : n % d = 0 ∨ n % (d + 2) = 0) :
    ∀ fuel i, i % 6 = 5 → i ≤ d → d - i < 6 * fuel →
      is_prime_loop n i fuel = false := by
  intro fuel
  induction fuel with
  | zero => intro i _ _ h; omega
  | succ fuel ih =>
    intro i hi6 hid hfuel
    have hiin : i * i ≤ n := le_trans (Nat.mul_le_mul hid hid) hdn
    have hiU : i * i % U32 = i * i := Nat.mod_eq_of_lt (lt_of_le_of_lt hiin hn)
    rw [is_prime_loop, if_pos (by rw [hiU]; exact hiin)]
    by_cases hdiv : n % i = 0 ∨ n % (i + 2) = 0
    · rw [if_pos (by simpa using hdiv)]
    · rw [if_neg (by simpa using hdiv)]
      have hne : i ≠ d := by rintro rfl; exact hdiv hdvd
      have hstep : i + 6 ≤ d := by omega
      have hd2 : d < U32 := lt_of_le_of_lt (le_trans (Nat.le_mul_of_pos_left d (by omega)) hdn) hn
      have h6U : (i + 6) % U32 = i + 6 := Nat.mod_eq_of_lt (by omega)
      rw [h6U]
      exact ih (i + 6) (by omega) hstep (by omega)

/-- Any non-prime (including 2, which the code's even test catches) below
`2^32` is reported not prime. -/
lemma ics_is_prime_composite (n : Nat) (h2 : 2 ≤ n) (hn : n < U32)
    (hnp : ¬ Nat.Prime n) : ics_is_prime n = false := by
  have h3 : n ≠ 3 := by rintro rfl; exact hnp (by norm_num)
  rw [ics_is_prime, if_neg (by omega), if_neg h3]
  by_cases he : n % 2 = 0 ∨ n % 3 = 0
  · rw [if_pos (by simpa using he)]
  · rw [if_neg (by simpa using he)]
    push_neg at he
    have hne1 : n ≠ 1 := by omega
    have hp := Nat.minFac_prime hne1
    have hdvd := Nat.minFac_dvd n
    set p := Nat.minFac n with hpdef
    have hmod : n % p = 0 := by
      obtain ⟨c, hc⟩ := hdvd
      rw [hc]; exact Nat.mul_mod_right p c
    have hppos : 0 < p := hp.pos
    have hp2 : p ≠ 2 := by
      rintro h
      exact he.1 (by
        obtain ⟨c, hc⟩ := h ▸ hdvd
        rw [hc]; exact Nat.mul_mod_right 2 c)
    have hp3 : p ≠ 3 := by
      rintro h
      exact he.2 (by
        obtain ⟨c, hc⟩ := h ▸ hdvd
        rw [hc]; exact Nat.mul_mod_right 3 c)
    have hp5 : 5 ≤ p := by
      have h2le := hp.two_le
      have h4 : p ≠ 4 := by intro h4e; rw [h4e] at hp; norm_num at hp
      omega
    have hpsq : p * p ≤ n := by
      have := Nat.minFac_sq_le_self (by omega : 0 < n) hnp
      simpa [pow_two, ← hpdef] using this
    have hpn : p ≤ n := Nat.minFac_le (by omega)
    have hp2m : p % 2 = 1 := by
      rcases Nat.mod_two_eq_zero_or_one p with h | h
      · exfalso
        rcases hp.eq_one_or_self_of_dvd 2 (Nat.dvd_of_mod_eq_zero h) with h' | h' <;> omega
      · exact h
    have hp3m : p % 3 ≠ 0 := by
      intro h
      rcases hp.eq_one_or_self_of_dvd 3 (Nat.dvd_of_mod_eq_zero h) with h' | h' <;> omega
    have hp6 : p % 6 = 1 ∨ p % 6 = 5 := by omega
    rcases hp6 with h6 | h6
    · -- d = p - 2, and p = d + 2 divides n
      have hd6 : (p - 2) % 6 = 5 := by omega
      have hdsq : (p - 2) * (p - 2) ≤ n :=
        le_trans (Nat.mul_le_mul (by omega) (by omega)) hpsq
      have hdvd2 : n % ((p - 2) + 2) = 0 := by
        have : (p - 2) + 2 = p := by omega
        rw [this]; exact hmod
      exact is_prime_loop_kill n (p - 2) hd6 hdsq hn (Or.inr hdvd2) n 5
        (by norm_num) (by omega) (by omega)
    · exact is_prime_loop_kill n p h6 hpsq hn (Or.inl hmod) n 5
        (by norm_num) (by omega) (by omega)

/-- For `n ≤ 2^31` no probe square wraps before the loop exits, so the loop
accepts genuine primes. -/
lemma is_prime_loop_prime (n : Nat) (hp : Nat.Prime n) (h5 : 5 ≤ n)
    (hb : n ≤ 2 ^ 31) :
    ∀ fuel i, i % 6 = 5 → i ≤ Nat.sqrt n + 6 → Nat.sqrt n + 7 ≤ fuel + i →
      is_prime_loop n i fuel = true := by
  have hsq : Nat.sqrt n ≤ 46340 :=
    le_trans (Nat.sqrt_le_sqrt hb) (by norm_num [Nat.sqrt])
  intro fuel
  induction fuel with
  | zero => intro i _ hile hf; omega
  | succ fuel ih =>
    intro i hi6 hile hf
    have hi46 : i ≤ 46346 := by omega
    have hiU : i * i % U32 = i * i :=
      Nat.mod_eq_of_lt
        (lt_of_le_of_lt (Nat.mul_le_mul hi46 hi46) (by norm_num [U32]))
    rw [is_prime_loop]
    by_cases hcond : i * i ≤ n
    · rw [if_pos (by rw [hiU]; exact hcond)]
      have hisq : i ≤ Nat.sqrt n := Nat.le_sqrt.mpr hcond
      have hi5 : 5 ≤ i := by omega
      have h1 : ¬ n % i = 0 := by
        intro h
        rcases hp.eq_one_or_self_of_dvd i (Nat.dvd_of_mod_eq_zero h) with h' | h'
        · omega
        · subst h'; nlinarith
      have h2 : ¬ n % (i + 2) = 0 := by
        intro h
        rcases hp.eq_one_or_self_of_dvd (i + 2) (Nat.dvd_of_mod_eq_zero h) with h' | h'
        · omega
        · nlinarith
      rw [if_neg (by simpa using And.intro h1 h2)]
      have h6U : (i + 6) % U32 = i + 6 := Nat.mod_eq_of_lt (by unfold U32; omega)
      rw [h6U]
      exact ih (i + 6) (by omega) (by omega) (by omega)
    · rw [if_neg (by rw [hiU]; exact hcond)]

/-- `ics_is_prime` accepts every prime from 3 up to `2^31` (it wrongly
rejects 2, see `ics_is_prime 2 = false` above, but `ics_next_prime` never
asks it about 2). -/
lemma ics_is_prime_prime (n : Nat) (hp : Nat.Prime n) (h3 : 3 ≤ n)
    (hb : n ≤ 2 ^ 31) : ics_is_prime n = true := by
  rw [ics_is_prime, if_neg (by omega)]
  by_cases he3 : n = 3
  · rw [if_pos he3]
  · rw [if_neg he3]
    have h4 : n ≠ 4 := by rintro rfl; norm_num at hp
    have h5 : 5 ≤ n := by omega
    have hm2 : n % 2 ≠ 0 := by
      intro h
      rcases hp.eq_one_or_self_of_dvd 2 (Nat.dvd_of_mod_eq_zero h) with h' | h' <;> omega
    have hm3 : n % 3 ≠ 0 := by
      intro h
      rcases hp.eq_one_or_self_of_dvd 3 (Nat.dvd_of_mod_eq_zero h) with h' | h' <;> omega
    rw [if_neg (by simpa using And.intro hm2 hm3)]
    have hsqn : Nat.sqrt n + 2 ≤ n := by
      by_contra hc
      have h1 : n - 1 ≤ Nat.sqrt n := by omega
      have hsq := Nat.le_sqrt.mp h1
      have h4 : 4 ≤ n - 1 := by omega
      have hn1 : n = (n - 1) + 1 := by omega
      nlinarith [hsq, h4, hn1]
    exact is_prime_loop_prime n hp h5 hb n 5 (by norm_num) (by omega) (by omega)

/-- The do-while of `ics_next_prime` walks from `start + 1` to the least
prime above `start`, rejecting the composites in between. -/
lemma next_prime_loop_eq (p : Nat) (hp : Nat.Prime p) (hb : p ≤ 2 ^ 31) :
    ∀ fuel q, 2 ≤ q → q < p → (∀ r, q < r → r < p → ¬ Nat.Prime r) →
      p - q ≤ fuel → next_prime_loop fuel q = p := by
  intro fuel
  induction fuel with
  | zero => intro q _ h _ hf; omega
  | succ fuel ih =>
    intro q hq hqp hmin hf
    have hqU : (q + 1) % U32 = q + 1 := Nat.mod_eq_of_lt (by unfold U32; omega)
    rw [next_prime_loop]
    simp only [hqU]
    by_cases he : q + 1 = p
    · rw [he, if_pos (ics_is_prime_prime p hp (by omega) hb)]
    · have hlt : q + 1 < p := by omega
      have hnp : ¬ Nat.Prime (q + 1) := hmin (q + 1) (by omega) hlt
      rw [if_neg (by simp [ics_is_prime_composite (q + 1) (by omega)
        (by unfold U32; omega) hnp])]
      exact ih (q + 1) (by omega) hlt
        (fun r h1 h2 => hmin r (by omega) h2) (by omega)

/-- The relocation loop of `resize` never touches the capacity field. -/
lemma rehash_capacity :
    ∀ (l : List Slot) (acc : icsmap) (st : ics_status) (m2 : icsmap),
      rehash acc l = some (st, m2) → m2.capacity = acc.capacity := by
  intro l
  induction l with
  | nil => intro acc st m2 h; simp [rehash] at h; rw [← h.2]
  | cons s rest ih =>
    intro acc st m2 h
    cases s with
    | empty => rw [rehash] at h; exact ih acc st m2 h
    | tomb => rw [rehash] at h; exact ih acc st m2 h
    | occ r =>
      rw [rehash] at h
      rcases hfh : find_hole acc r.key with _ | ⟨st', j⟩
      · rw [hfh] at h; cases h
      · rw [hfh] at h
        dsimp only at h
        by_cases hst : st' = ICS_OK
        · rw [if_pos hst] at h
          exact ih { acc with arr := acc.arr.set j (Slot.occ r) } st m2 h
        · rw [if_neg hst] at h
          simp only [Option.some.injEq, Prod.mk.injEq] at h
          rw [← h.2]

/-- Helper: `ics_next_prime` computes the least prime above its argument
whenever that prime is at most `2^31`. -/
lemma next_prime_least_eq (start p : Nat) (h1 : start < p)
    (hp : Nat.Prime p) (hb : p ≤ 2 ^ 31)
    (hmin : ∀ q, start < q → q < p → ¬ Nat.Prime q) :
    ics_next_prime start = p ∧
    ∀ (m : icsmap) (st : ics_status) (m2 : icsmap),
      m.capacity * 2 % U32 = start → resize m true = some (st, m2) →
        m2.capacity = p := by
  have hmain : ics_next_prime start = p := by
    rw [ics_next_prime]
    by_cases hs : start ≤ 1
    · rw [if_pos hs]
      by_contra hne
      have h2p : 2 < p := by
        rcases Nat.lt_or_ge 2 p with h | h
        · exact h
        · have := hp.two_le; omega
      exact hmin 2 (by omega) h2p (by norm_num)
    · rw [if_neg hs]
      exact next_prime_loop_eq p hp hb U32 start (by omega) h1 hmin
        (by unfold U32; omega)
  refine ⟨hmain, fun m st m2 hcap hres => ?_⟩
  rw [resize, if_pos rfl] at hres
  have := rehash_capacity m.arr _ st m2 hres
  simpa [hcap, hmain] using this

/-- Claim C7 (amended): for every starting value whose least strictly
greater prime is at most `2^31`, `ics_next_prime` yields exactly that least
prime; consequently a successful `resize` from a capacity `c` (with
`2c` in that range) sets the capacity to the least prime strictly greater
than `2c`.  (Beyond that range `uint32_t` wraparound breaks the claim, see
the counterexample at 2^32 − 1.) -/
theorem C7_next_prime_least (start p : Nat) (h1 : start < p)
    (hp : Nat.Prime p) (hb : p ≤ 2 ^ 31)
    (hmin : ∀ q, start < q → q < p → ¬ Nat.Prime q) :
    ics_next_prime start = p ∧
    ∀ (m : icsmap) (st : ics_status) (m2 : icsmap),
      m.capacity * 2 % U32 = start → resize m true = some (st, m2) →
        m2.capacity = p :=
  next_prime_least_eq start p h1 hp hb hmin

/-- Witness for `C7_next_prime_least` at start 26 = 2 × 13 (the first
resize): the least prime above 26 is 29. -/
theorem C7_witness :
    (26 : Nat) < 29 ∧ Nat.Prime 29 ∧ (29 : Nat) ≤ 2 ^ 31 ∧
      ics_next_prime 26 = 29 :=
  ⟨by norm_num, by norm_num, by norm_num,
    (C7_next_prime_least 26 29 (by norm_num) (by norm_num) (by norm_num)
      (fun q hq1 hq2 => by interval_cases q <;> norm_num)).1⟩

/-- Claim C10: the concrete scenario of the spec: init(keysize 1, valsize 4);
put('a',1); put('b',2); put('a',3) ends with count 2, get('a') copies out
the 4 value bytes of 3, get('b') those of 2, and get('c') reports
`ICS_NOT_FOUND` (no tombstones exist, so the sentinel-junk parameter is
irrelevant; it is passed as []). -/
theorem C10_concrete_scenario :
    c10m.map icsmap_count = some 2 ∧
    c10m.bind (fun m => icsmap_get [] m [97]) =
      some (ICS_OK, some [3, 0, 0, 0]) ∧
    c10m.bind (fun m => icsmap_get [] m [98]) =
      some (ICS_OK, some [2, 0, 0, 0]) ∧
    c10m.bind (fun m => icsmap_get [] m [99]) =
      some (ICS_NOT_FOUND, none) := by
  refine ⟨by decide, by decide, by decide, by decide⟩

/-! ## Iteration and bulk export (claim C9) -/

/-- The `icsmap_foreach` fold that collects pairs appends exactly the live
entries in storage order. -/
lemma foldl_collect_eq_live :
    ∀ (l : List Slot) (acc : List (List Nat × List Nat)),
      l.foldl
        (fun acc s =>
          match s with
          | Slot.occ r => acc ++ [(r.key, r.val)]
          | _ => acc) acc
        = acc ++ live_entries l := by
  intro l
  induction l with
  | nil => intro acc; simp [live_entries]
  | cons s rest ih =>
    intro acc
    cases s with
    | empty => simpa [live_entries, List.filterMap_cons] using ih acc
    | tomb => simpa [live_entries, List.filterMap_cons] using ih acc
    | occ r =>
      simp only [List.foldl_cons, live_entries, List.filterMap_cons]
      rw [ih]
      simp [live_entries]

/-- The `icsmap_all` fold writes both buffers densely in storage order. -/
lemma icsmap_all_fold (ks vs : Nat) :
    ∀ (l : List Slot) (a b : List Nat) (c : Nat),
      l.foldl
        (fun acc s =>
          match s with
          | Slot.occ r =>
            (acc.1 ++ r.key.take ks, acc.2.1 ++ r.val.take vs, acc.2.2 + 1)
          | _ => acc) (a, b, c)
        = (a ++ ((live_entries l).map fun p => p.1.take ks).flatten,
           b ++ ((live_entries l).map fun p => p.2.take vs).flatten,
           c + (live_entries l).length) := by
  intro l
  induction l with
  | nil => intro a b c; simp [live_entries]
  | cons s rest ih =>
    intro a b c
    cases s with
    | empty => simpa [live_entries, List.filterMap_cons] using ih a b c
    | tomb => simpa [live_entries, List.filterMap_cons] using ih a b c
    | occ r =>
      simp only [List.foldl_cons, live_entries, List.filterMap_cons]
      rw [ih]
      simp [live_entries, List.append_assoc]
      omega

/-- `occCount` counts exactly the entries `live_entries` collects. -/
lemma occCount_eq_live_length :
    ∀ l : List Slot, occCount l = (live_entries l).length := by
  intro l
  induction l with
  | nil => simp [occCount, live_entries]
  | cons s rest ih =>
    cases s <;>
      simp [occCount, live_entries, List.filterMap_cons, List.countP_cons,
        is_occ] at ih ⊢ <;> omega

/-- Every pair collected from a well-formed array has exact record sizes. -/
lemma live_entries_wf (l : List Slot) (ks vs : Nat)
    (hwf : ∀ s ∈ l, slot_wf ks vs s = true) :
    ∀ p ∈ live_entries l, p.1.length = ks ∧ p.2.length = vs := by
  intro p hp
  rw [live_entries, List.mem_filterMap] at hp
  obtain ⟨s, hs, hmatch⟩ := hp
  cases s with
  | empty => simp at hmatch
  | tomb => simp at hmatch
  | occ r =>
    have := hwf _ hs
    simp [slot_wf] at this
    simp only [Option.some.injEq] at hmatch
    rw [← hmatch]
    exact this

/-- Sum of a constant list. -/
lemma sum_const_list (ks : Nat) :
    ∀ L : List Nat, (∀ x ∈ L, x = ks) → L.sum = L.length * ks := by
  intro L
  induction L with
  | nil => simp
  | cons x rest ih =>
    intro h
    have hx := h x (by simp)
    have hr := ih fun y hy => h y (by simp [hy])
    simp [hx, hr, Nat.succ_mul, Nat.add_comm]

/-- Claim C9: on any well-formed state (live records correctly sized, count
equal to the number of live slots — both invariants of all reachable
states), `icsmap_all` writes exactly `count` key records and `count` value
records, densely packed in storage order with no gaps, and the pair
sequence written is exactly the sequence `icsmap_foreach` visits. -/
theorem C9_all_exports_foreach_sequence (m : icsmap)
    (hocc : occCount m.arr = m.size)
    (hwf : ∀ s ∈ m.arr, slot_wf m.keysize m.valsize s = true) :
    (icsmap_all m).1 = ((foreach_visits m).map Prod.fst).flatten ∧
    (icsmap_all m).2.1 = ((foreach_visits m).map Prod.snd).flatten ∧
    (icsmap_all m).2.2 = m.size ∧
    (foreach_visits m).length = m.size ∧
    (icsmap_all m).1.length = m.size * m.keysize ∧
    (icsmap_all m).2.1.length = m.size * m.valsize := by
  have hvis : foreach_visits m = live_entries m.arr := by
    rw [foreach_visits, icsmap_foreach]
    exact foldl_collect_eq_live m.arr []
  have hall := icsmap_all_fold m.keysize m.valsize m.arr [] [] 0
  have hlens := live_entries_wf m.arr m.keysize m.valsize hwf
  have hkeys : ((live_entries m.arr).map fun p => p.1.take m.keysize)
      = (live_entries m.arr).map Prod.fst := by
    apply List.map_congr_left
    intro p hp
    rw [← (hlens p hp).1]
    exact List.take_length p.1
  have hvals : ((live_entries m.arr).map fun p => p.2.take m.valsize)
      = (live_entries m.arr).map Prod.snd := by
    apply List.map_congr_left
    intro p hp
    rw [← (hlens p hp).2]
    exact List.take_length p.2
  have hlen : (live_entries m.arr).length = m.size := by
    rw [← occCount_eq_live_length]; exact hocc
  have h1 : (icsmap_all m).1 = ((live_entries m.arr).map Prod.fst).flatten := by
    rw [icsmap_all, hall, hkeys]; simp
  have h2 : (icsmap_all m).2.1 = ((live_entries m.arr).map Prod.snd).flatten := by
    rw [icsmap_all, hall, hvals]; simp
  have h3 : (icsmap_all m).2.2 = m.size := by
    rw [icsmap_all, hall]; simpa using hlen
  refine ⟨by rw [h1, hvis], by rw [h2, hvis], h3, by rw [hvis, hlen], ?_, ?_⟩
  · rw [h1, List.length_flatten]
    have hc : (((live_entries m.arr).map Prod.fst).map List.length).sum
        = (((live_entries m.arr).map Prod.fst).map List.length).length * m.keysize := by
      apply sum_const_list
      intro x hx
      simp only [List.map_map, List.mem_map] at hx
      obtain ⟨p, hp, hpx⟩ := hx
      rw [← hpx]
      exact (hlens p hp).1
    simp only [List.map_map] at hc ⊢
    rw [hc]
    simp [hlen]
  · rw [h2, List.length_flatten]
    have hc : (((live_entries m.arr).map Prod.snd).map List.length).sum
        = (((live_entries m.arr).map Prod.snd).map List.length).length * m.valsize := by
      apply sum_const_list
      intro x hx
      simp only [List.map_map, List.mem_map] at hx
      obtain ⟨p, hp, hpx⟩ := hx
      rw [← hpx]
      exact (hlens p hp).2
    simp only [List.map_map] at hc ⊢
    rw [hc]
    simp [hlen]

/-- Witness for `C9_all_exports_foreach_sequence` on a small concrete state
(one live record, one tombstone, rest empty). -/
theorem C9_witness :
    (occCount ([Slot.occ ⟨[7], [9]⟩, Slot.tomb, Slot.empty] : List Slot) = 1 ∧
     ∀ s ∈ ([Slot.occ ⟨[7], [9]⟩, Slot.tomb, Slot.empty] : List Slot),
       slot_wf 1 1 s = true) ∧
    (icsmap_all ⟨1, 3, 1, 1, none, [Slot.occ ⟨[7], [9]⟩, Slot.tomb, Slot.empty]⟩).2.2 = 1 := by
  refine ⟨⟨by decide, by decide⟩, ?_⟩
  exact (C9_all_exports_foreach_sequence
    ⟨1, 3, 1, 1, none, [Slot.occ ⟨[7], [9]⟩, Slot.tomb, Slot.empty]⟩
    (by decide) (by decide)).2.2.1

/-! ## Probe-sequence infrastructure -/

/-- Position `t` of the linear probe sequence that starts at `start`. -/
def probe (m : icsmap) (start t : Nat) : Nat := (start + t) % m.capacity

/-- A slot that keeps both probe loops scanning: live, with a resolved view
different from the search view. -/
def occ_mismatch (m : icsmap) (kv : List Nat) (i : Nat) : Bool :=
  match slotAt m i with
  | Slot.occ r => ! ics_equal (get_key m r.key) kv kv.length
  | _ => false

lemma probe_zero (m : icsmap) (start : Nat) (h : start < m.capacity) :
    probe m start 0 = start := by
  simp [probe, Nat.mod_eq_of_lt h]

lemma probe_lt (m : icsmap) (start t : Nat) (h : 0 < m.capacity) :
    probe m start t < m.capacity := Nat.mod_lt _ h

lemma probe_step (m : icsmap) (start t : Nat) :
    (probe m start t + 1) % m.capacity = probe m start (t + 1) := by
  simp only [probe, Nat.mod_add_mod]
  rw [Nat.add_assoc]

lemma probe_shift (m : icsmap) (start t : Nat) :
    probe m ((start + 1) % m.capacity) t = probe m start (t + 1) := by
  simp only [probe, Nat.mod_add_mod]
  congr 1
  omega

lemma probe_inj (m : icsmap) (start t1 t2 : Nat) (h : 0 < m.capacity)
    (h1 : t1 < m.capacity) (h2 : t2 < m.capacity)
    (he : probe m start t1 = probe m start t2) : t1 = t2 := by
  rcases Nat.le_total t1 t2 with hle | hle
  · have hdvd : m.capacity ∣ (start + t2) - (start + t1) :=
      (Nat.modEq_iff_dvd' (by omega)).mp he
    have heq : (start + t2) - (start + t1) = t2 - t1 := by omega
    rw [heq] at hdvd
    rcases Nat.eq_zero_or_pos (t2 - t1) with hz | hpos
    · omega
    · have := Nat.le_of_dvd hpos hdvd
      omega
  · have hdvd : m.capacity ∣ (start + t1) - (start + t2) :=
      (Nat.modEq_iff_dvd' (by omega)).mp he.symm
    have heq : (start + t1) - (start + t2) = t1 - t2 := by omega
    rw [heq] at hdvd
    rcases Nat.eq_zero_or_pos (t1 - t2) with hz | hpos
    · omega
    · have := Nat.le_of_dvd hpos hdvd
      omega

lemma probe_surj (m : icsmap) (start j : Nat) (hc : 0 < m.capacity)
    (hj : j < m.capacity) : ∃ t < m.capacity, probe m start t = j := by
  refine ⟨(j + m.capacity - start % m.capacity) % m.capacity,
    Nat.mod_lt _ hc, ?_⟩
  have hs : start % m.capacity < m.capacity := Nat.mod_lt _ hc
  have he : (start + (j + m.capacity - start % m.capacity) % m.capacity) % m.capacity
      = (start + (j + m.capacity - start % m.capacity)) % m.capacity :=
    Nat.ModEq.add_left start (Nat.mod_modEq _ _)
  have hq := Nat.div_add_mod start m.capacity
  have hsum : start + (j + m.capacity - start % m.capacity)
      = j + (m.capacity * (start / m.capacity) + m.capacity) := by omega
  unfold probe
  rw [he, hsum, ← Nat.mul_succ, Nat.add_mul_mod_self_left]
  exact Nat.mod_eq_of_lt hj

/-! helper list lemmas -/

lemma getD_set_self {α : Type} (l : List α) (j : Nat) (a d : α)
    (h : j < l.length) : (l.set j a).getD j d = a := by
  induction l generalizing j with
  | nil => simp at h
  | cons x rest ih =>
    cases j with
    | zero => simp
    | succ j' => simpa using ih j' (by simpa using h)

lemma getD_set_ne {α : Type} (l : List α) (i j : Nat) (a d : α)
    (h : i ≠ j) : (l.set i a).getD j d = l.getD j d := by
  induction l generalizing i j with
  | nil => simp
  | cons x rest ih =>
    cases i with
    | zero =>
      cases j with
      | zero => omega
      | succ j' => simp
    | succ i' =>
      cases j with
      | zero => simp
      | succ j' => simpa using ih i' j' (by omega)

/-! ## Characterisation of the two probe loops -/

/-- `find_hole`'s loop walks past a prefix of mismatching live slots. -/
lemma find_hole_loop_skip (m : icsmap) (kv : List Nat) :
    ∀ (T start fuel : Nat), start < m.capacity → T ≤ fuel →
      (∀ t < T, occ_mismatch m kv (probe m start t) = true) →
      find_hole_loop m kv start fuel
        = find_hole_loop m kv (probe m start T) (fuel - T) := by
  intro T
  induction T with
  | zero =>
    intro start fuel hstart _ _
    rw [probe_zero m start hstart]
    simp
  | succ T ih =>
    intro start fuel hstart hT hpre
    have h0 := hpre 0 (by omega)
    rw [probe_zero m start hstart, occ_mismatch] at h0
    rcases hslot : slotAt m start with _ | _ | r <;> rw [hslot] at h0
    · simp at h0
    · simp at h0
    · simp only [Bool.not_eq_true'] at h0
      obtain ⟨fuel', rfl⟩ : ∃ fuel', fuel = fuel' + 1 := ⟨fuel - 1, by omega⟩
      rw [find_hole_loop, hslot]
      dsimp only
      rw [if_neg (by simp [h0])]
      have hstep : (start + 1) % m.capacity < m.capacity :=
        Nat.mod_lt _ (by omega)
      have hrec := ih ((start + 1) % m.capacity) fuel' hstep (by omega)
        (fun t ht => by rw [probe_shift]; exact hpre (t + 1) (by omega))
      rw [hrec, probe_shift]
      congr 1
      omega

/-- After the mismatching prefix, `find_hole`'s loop stops: at an `Empty` or
`Tombstone` slot with `ICS_OK`, at a matching live slot with `ICS_EXISTS`. -/
lemma find_hole_loop_finds (m : icsmap) (kv : List Nat) (start T fuel : Nat)
    (hstart : start < m.capacity) (hT : T < fuel)
    (hpre : ∀ t < T, occ_mismatch m kv (probe m start t) = true) :
    ((slotAt m (probe m start T) = Slot.empty ∨
      slotAt m (probe m start T) = Slot.tomb) →
      find_hole_loop m kv start fuel = some (ICS_OK, probe m start T)) ∧
    (∀ r, slotAt m (probe m start T) = Slot.occ r →
      ics_equal (get_key m r.key) kv kv.length = true →
      find_hole_loop m kv start fuel = some (ICS_EXISTS, probe m start T)) := by
  have hskip := find_hole_loop_skip m kv T start fuel hstart (by omega) hpre
  obtain ⟨fuel', hfuel'⟩ : ∃ fuel', fuel - T = fuel' + 1 := ⟨fuel - T - 1, by omega⟩
  constructor
  · intro hslot
    rw [hskip, hfuel', find_hole_loop]
    rcases hslot with h | h <;> rw [h]
  · intro r hslot heq
    rw [hskip, hfuel', find_hole_loop, hslot]
    dsimp only
    rw [if_pos heq]

/-- Inversion: any result of `find_hole`'s loop is preceded by a mismatching
live prefix and is of one of the two stop shapes. -/
lemma find_hole_loop_inv (m : icsmap) (kv : List Nat) :
    ∀ (fuel start : Nat) (st : ics_status) (j : Nat), start < m.capacity →
      find_hole_loop m kv start fuel = some (st, j) →
      ∃ T < fuel, j = probe m start T ∧
        (∀ t < T, occ_mismatch m kv (probe m start t) = true) ∧
        ((st = ICS_OK ∧ (slotAt m j = Slot.empty ∨ slotAt m j = Slot.tomb)) ∨
         (st = ICS_EXISTS ∧ ∃ r, slotAt m j = Slot.occ r ∧
            ics_equal (get_key m r.key) kv kv.length = true)) := by
  intro fuel
  induction fuel with
  | zero => intro start st j _ h; rw [find_hole_loop] at h; cases h
  | succ fuel ih =>
    intro start st j hstart h
    rw [find_hole_loop] at h
    rcases hslot : slotAt m start with _ | _ | r <;> rw [hslot] at h
    · simp only [Option.some.injEq, Prod.mk.injEq] at h
      obtain ⟨h1, h2⟩ := h
      subst h2
      exact ⟨0, by omega, (probe_zero m start hstart).symm, by omega,
        Or.inl ⟨h1.symm, Or.inl hslot⟩⟩
    · simp only [Option.some.injEq, Prod.mk.injEq] at h
      obtain ⟨h1, h2⟩ := h
      subst h2
      exact ⟨0, by omega, (probe_zero m start hstart).symm, by omega,
        Or.inl ⟨h1.symm, Or.inr hslot⟩⟩
    · dsimp only at h
      by_cases heq : ics_equal (get_key m r.key) kv kv.length = true
      · rw [if_pos heq] at h
        simp only [Option.some.injEq, Prod.mk.injEq] at h
        obtain ⟨h1, h2⟩ := h
        subst h2
        exact ⟨0, by omega, (probe_zero m start hstart).symm, by omega,
          Or.inr ⟨h1.symm, r, hslot, heq⟩⟩
      · rw [if_neg heq] at h
        have hstep : (start + 1) % m.capacity < m.capacity :=
          Nat.mod_lt _ (by omega)
        obtain ⟨T, hTf, hj, hpre, hcase⟩ := ih ((start + 1) % m.capacity) st j hstep h
        refine ⟨T + 1, by omega, by rw [← probe_shift]; exact hj, ?_, hcase⟩
        intro t ht
        cases t with
        | zero =>
          rw [probe_zero m start hstart, occ_mismatch, hslot]
          simp [heq]
        | succ t' =>
          rw [← probe_shift]
          exact hpre t' (by omega)

/-- If some slot of the (well-sized) array is not a live record, the
`find_hole` loop with fuel `capacity` terminates. -/
lemma find_hole_loop_total (m : icsmap) (kv : List Nat) (start : Nat)
    (hstart : start < m.capacity) (harr : m.arr.length = m.capacity)
    (hsome : ∃ j < m.capacity, is_occ (slotAt m j) = false) :
    ∃ st j, find_hole_loop m kv start m.capacity = some (st, j) := by
  obtain ⟨j0, hj0, hocc0⟩ := hsome
  have hc : 0 < m.capacity := by omega
  obtain ⟨t0, ht0, hpt0⟩ := probe_surj m start j0 hc hj0
  have hex : ∃ t, occ_mismatch m kv (probe m start t) = false := by
    refine ⟨t0, ?_⟩
    rw [occ_mismatch, hpt0]
    rcases hslot : slotAt m j0 with _ | _ | r
    · rfl
    · rfl
    · rw [hslot] at hocc0; simp [is_occ] at hocc0
  classical
  let T := Nat.find hex
  have hTspec : occ_mismatch m kv (probe m start T) = false := Nat.find_spec hex
  have hTmin : ∀ t < T, occ_mismatch m kv (probe m start t) = true := by
    intro t ht
    have := Nat.find_min hex ht
    simpa using this
  have hTle : T ≤ t0 := Nat.find_min' hex (by
    rw [occ_mismatch, hpt0]
    rcases hslot : slotAt m j0 with _ | _ | r
    · rfl
    · rfl
    · rw [hslot] at hocc0; simp [is_occ] at hocc0)
  have hTcap : T < m.capacity := by omega
  have hfind := find_hole_loop_finds m kv start T m.capacity hstart hTcap hTmin
  rw [occ_mismatch] at hTspec
  rcases hslot : slotAt m (probe m start T) with _ | _ | r <;> rw [hslot] at hTspec
  · exact ⟨ICS_OK, probe m start T, hfind.1 (Or.inl hslot)⟩
  · exact ⟨ICS_OK, probe m start T, hfind.1 (Or.inr hslot)⟩
  · simp only [Bool.not_eq_false'] at hTspec
    exact ⟨ICS_EXISTS, probe m start T, hfind.2 r hslot (by simpa using hTspec)⟩

/-- `probe` returns to its start after a full cycle. -/
lemma probe_capacity (m : icsmap) (start : Nat) (hstart : start < m.capacity) :
    probe m start m.capacity = start := by
  unfold probe
  rw [Nat.add_mod_right]
  exact Nat.mod_eq_of_lt hstart

/-- `find_key`'s loop always terminates within fuel `capacity + 1`: at an
`Empty` slot, at a match, or at the full-cycle break. -/
lemma find_key_loop_total (m : icsmap) (junk kv : List Nat) (start : Nat)
    (hstart : start < m.capacity) :
    ∀ fuel t i, i = probe m start t → t < m.capacity →
      m.capacity ≤ fuel + t →
      (find_key_loop m junk kv start i fuel).isSome = true := by
  intro fuel
  induction fuel with
  | zero => intro t i _ ht hf; omega
  | succ fuel ih =>
    intro t i hi ht hf
    rw [find_key_loop]
    rcases hslot : slotAt m i with _ | _ | r
    · simp
    · dsimp only
      by_cases heq : ics_equal (get_key m junk) kv kv.length = true
      · rw [if_pos heq]; simp
      · rw [if_neg heq]
        by_cases hcyc : (i + 1) % m.capacity = start
        · rw [if_pos hcyc]; simp
        · rw [if_neg hcyc]
          have ht1 : t + 1 < m.capacity := by
            by_contra hc
            have htc : t + 1 = m.capacity := by omega
            have : (i + 1) % m.capacity = start := by
              rw [hi, probe_step, htc]
              exact probe_capacity m start hstart
            exact hcyc this
          exact ih (t + 1) _ (by rw [hi, probe_step]) ht1 (by omega)
    · dsimp only
      by_cases heq : ics_equal (get_key m r.key) kv kv.length = true
      · rw [if_pos heq]; simp
      · rw [if_neg heq]
        by_cases hcyc : (i + 1) % m.capacity = start
        · rw [if_pos hcyc]; simp
        · rw [if_neg hcyc]
          have ht1 : t + 1 < m.capacity := by
            by_contra hc
            have htc : t + 1 = m.capacity := by omega
            have : (i + 1) % m.capacity = start := by
              rw [hi, probe_step, htc]
              exact probe_capacity m start hstart
            exact hcyc this
          exact ih (t + 1) _ (by rw [hi, probe_step]) ht1 (by omega)

/-- `find_key` is total whenever the capacity is positive: the C loop cannot
run forever (it has the full-cycle break), matching the claim that the
search loop always terminates. -/
lemma find_key_total (junk : List Nat) (m : icsmap) (key : List Nat)
    (hc : 0 < m.capacity) : (find_key junk m key).isSome = true := by
  rw [find_key]
  have hstart : hash m (get_key m key) < m.capacity := Nat.mod_lt _ hc
  exact find_key_loop_total m junk (get_key m key) _ hstart (m.capacity + 1) 0 _
    (probe_zero m _ hstart).symm (by omega) (by omega)

/-- If a mismatching live prefix leads to a matching live slot, `find_key`'s
loop finds it (no tombstone lies on that path, so the sentinel junk is never
consulted). -/
lemma find_key_loop_finds (m : icsmap) (junk kv : List Nat) (start T : Nat)
    (hstart : start < m.capacity) (hT : T < m.capacity)
    (hpre : ∀ t < T, occ_mismatch m kv (probe m start t) = true)
    (r : map_rec) (hslot : slotAt m (probe m start T) = Slot.occ r)
    (heq : ics_equal (get_key m r.key) kv kv.length = true) :
    ∀ fuel t, t ≤ T → m.capacity ≤ fuel + t →
      find_key_loop m junk kv start (probe m start t) fuel
        = some (some (probe m start T)) := by
  intro fuel
  induction fuel with
  | zero => intro t ht hf; omega
  | succ fuel ih =>
    intro t ht hf
    by_cases hts : t = T
    · subst hts
      rw [find_key_loop, hslot]
      dsimp only
      rw [if_pos heq]
    · have htT : t < T := by omega
      have hmis := hpre t htT
      rw [occ_mismatch] at hmis
      rcases hslot' : slotAt m (probe m start t) with _ | _ | r' <;>
        rw [hslot'] at hmis
      · simp at hmis
      · simp at hmis
      · simp only [Bool.not_eq_true'] at hmis
        rw [find_key_loop, hslot']
        dsimp only
        rw [if_neg (by simp [hmis])]
        have hcyc : ¬ (probe m start t + 1) % m.capacity = start := by
          rw [probe_step]
          intro hcy
          have h0 : probe m start 0 = start := probe_zero m start hstart
          have := probe_inj m start (t + 1) 0 (by omega) (by omega) (by omega)
            (by rw [hcy, h0])
          omega
        rw [if_neg hcyc, probe_step]
        exact ih (t + 1) (by omega) (by omega)

/-! ## Structural lemmas about `resize` and `icsmap_put` -/

/-- On equally sized regions, `ics_equal` is plain byte-list equality. -/
lemma ics_equal_eq_true_iff (a b : List Nat) (n : Nat) (ha : a.length = n)
    (hb : b.length = n) : ics_equal a b n = true ↔ a = b := by
  rw [ics_equal, List.all_eq_true]
  constructor
  · intro h
    apply List.ext_getElem (by rw [ha, hb])
    intro i h1 h2
    have := h i (by rw [List.mem_range]; omega)
    rw [List.getD_eq_getElem a 0 (by omega), List.getD_eq_getElem b 0 (by omega)] at this
    exact beq_iff_eq.mp (by simpa using this)
  · rintro rfl i _
    simp

/-- The relocation loop of `resize` changes neither the configuration fields
nor the size, and keeps the array length. -/
lemma rehash_fields :
    ∀ (l : List Slot) (acc : icsmap) (st : ics_status) (m2 : icsmap),
      rehash acc l = some (st, m2) →
      m2.size = acc.size ∧ m2.keysize = acc.keysize ∧
      m2.valsize = acc.valsize ∧ m2.get_key = acc.get_key ∧
      m2.arr.length = acc.arr.length := by
  intro l
  induction l with
  | nil =>
    intro acc st m2 h
    simp [rehash] at h
    rw [← h.2]
    exact ⟨rfl, rfl, rfl, rfl, rfl⟩
  | cons s rest ih =>
    intro acc st m2 h
    cases s with
    | empty => rw [rehash] at h; exact ih acc st m2 h
    | tomb => rw [rehash] at h; exact ih acc st m2 h
    | occ r =>
      rw [rehash] at h
      rcases hfh : find_hole acc r.key with _ | ⟨st', j⟩
      · rw [hfh] at h; cases h
      · rw [hfh] at h
        dsimp only at h
        by_cases hst : st' = ICS_OK
        · rw [if_pos hst] at h
          have := ih { acc with arr := acc.arr.set j (Slot.occ r) } st m2 h
          simpa [List.length_set] using this
        · rw [if_neg hst] at h
          simp only [Option.some.injEq, Prod.mk.injEq] at h
          rw [← h.2]
          exact ⟨rfl, rfl, rfl, rfl, rfl⟩

/-- A successful `resize` keeps size and configuration, bumps the capacity
to `ics_next_prime(2 × capacity)` (in `uint32_t`), and delivers an array of
exactly the new capacity. -/
lemma resize_ok_fields (m : icsmap) (st : ics_status) (m2 : icsmap)
    (h : resize m true = some (st, m2)) :
    m2.size = m.size ∧ m2.keysize = m.keysize ∧ m2.valsize = m.valsize ∧
    m2.get_key = m.get_key ∧
    m2.capacity = ics_next_prime (m.capacity * 2 % U32) ∧
    m2.arr.length = m2.capacity := by
  rw [resize, if_pos rfl] at h
  have hf := rehash_fields m.arr _ st m2 h
  have hc := rehash_capacity m.arr _ st m2 h
  simp only at hf hc
  refine ⟨hf.1, hf.2.1, hf.2.2.1, hf.2.2.2.1, hc, ?_⟩
  rw [hf.2.2.2.2, hc]
  simp

/-- Inversion of a successful put: a resize happened exactly when the map
was overloaded on entry (and itself succeeded), after which `find_hole`
either reported the key as existing (overwrite in place, size unchanged) or
delivered a hole (fresh record, size + 1). -/
lemma icsmap_put_ok_inv (m : icsmap) (key val : List Nat) (a b : Bool)
    (m' : icsmap) (h : icsmap_put m key val a b = some (ICS_OK, m')) :
    ∃ m1, ((is_overloaded m = false ∧ m1 = m) ∨
           (is_overloaded m = true ∧ resize m a = some (ICS_OK, m1))) ∧
      ((∃ j, find_hole m1 key = some (ICS_EXISTS, j) ∧
          m' = { m1 with
            arr := m1.arr.set j (Slot.occ (init_map_entry m1 key val)) }) ∨
       (∃ st2 j, find_hole m1 key = some (st2, j) ∧ st2 ≠ ICS_EXISTS ∧
          b = true ∧
          m' = { m1 with
            arr := m1.arr.set j (Slot.occ (init_map_entry m1 key val)),
            size := m1.size + 1 })) := by
  rw [icsmap_put] at h
  by_cases hov : is_overloaded m
  · rw [if_pos hov] at h
    rcases hres : resize m a with _ | ⟨st1, m1⟩
    · rw [hres] at h; cases h
    · rw [hres] at h
      dsimp only at h
      by_cases hst1 : st1 = ICS_OK
      · rw [if_pos hst1] at h
        refine ⟨m1, Or.inr ⟨by simp [hov], by rw [hst1]⟩, ?_⟩
        rcases hfh : find_hole m1 key with _ | ⟨st2, j⟩
        · rw [hfh] at h; cases h
        · rw [hfh] at h
          cases st2 with
          | ICS_EXISTS =>
            simp only [Option.some.injEq, Prod.mk.injEq] at h
            exact Or.inl ⟨j, rfl, h.2.symm⟩
          | ICS_OK =>
            cases b with
            | false => simp at h
            | true =>
              simp only [if_pos] at h
              simp only [Option.some.injEq, Prod.mk.injEq] at h
              exact Or.inr ⟨ICS_OK, j, rfl, by simp, rfl, h.2.symm⟩
          | ICS_FAILURE =>
            cases b with
            | false => simp at h
            | true =>
              simp only [if_pos] at h
              simp only [Option.some.injEq, Prod.mk.injEq] at h
              exact Or.inr ⟨ICS_FAILURE, j, rfl, by simp, rfl, h.2.symm⟩
          | ICS_NO_MEMORY =>
            cases b with
            | false => simp at h
            | true =>
              simp only [if_pos] at h
              simp only [Option.some.injEq, Prod.mk.injEq] at h
              exact Or.inr ⟨ICS_NO_MEMORY, j, rfl, by simp, rfl, h.2.symm⟩
          | ICS_NOT_FOUND =>
            cases b with
            | false => simp at h
            | true =>
              simp only [if_pos] at h
              simp only [Option.some.injEq, Prod.mk.injEq] at h
              exact Or.inr ⟨ICS_NOT_FOUND, j, rfl, by simp, rfl, h.2.symm⟩
      · rw [if_neg hst1] at h
        simp only [Option.some.injEq, Prod.mk.injEq] at h
        exact absurd h.1 hst1
  · rw [if_neg hov] at h
    dsimp only at h
    rw [if_pos rfl] at h
    refine ⟨m, Or.inl ⟨by simpa using hov, rfl⟩, ?_⟩
    rcases hfh : find_hole m key with _ | ⟨st2, j⟩
    · rw [hfh] at h; cases h
    · rw [hfh] at h
      cases st2 with
      | ICS_EXISTS =>
        simp only [Option.some.injEq, Prod.mk.injEq] at h
        exact Or.inl ⟨j, rfl, h.2.symm⟩
      | ICS_OK =>
        cases b with
        | false => simp at h
        | true =>
          simp only [if_pos] at h
          simp only [Option.some.injEq, Prod.mk.injEq] at h
          exact Or.inr ⟨ICS_OK, j, rfl, by simp, rfl, h.2.symm⟩
      | ICS_FAILURE =>
        cases b with
        | false => simp at h
        | true =>
          simp only [if_pos] at h
          simp only [Option.some.injEq, Prod.mk.injEq] at h
          exact Or.inr ⟨ICS_FAILURE, j, rfl, by simp, rfl, h.2.symm⟩
      | ICS_NO_MEMORY =>
        cases b with
        | false => simp at h
        | true =>
          simp only [if_pos] at h
          simp only [Option.some.injEq, Prod.mk.injEq] at h
          exact Or.inr ⟨ICS_NO_MEMORY, j, rfl, by simp, rfl, h.2.symm⟩
      | ICS_NOT_FOUND =>
        cases b with
        | false => simp at h
        | true =>
          simp only [if_pos] at h
          simp only [Option.some.injEq, Prod.mk.injEq] at h
          exact Or.inr ⟨ICS_NOT_FOUND, j, rfl, by simp, rfl, h.2.symm⟩

/-! ## Claim C4 (amended) and claim C5 (amended) -/

/-- Claim C4 (amended): when the key is found to already exist at slot `j`
(no resize intervening), put rewrites exactly the record at `j`, overwriting
its value bytes *and* its key bytes with the supplied buffers' bytes; count,
capacity, and every other slot are unchanged.  With no resolver configured
the supplied key bytes necessarily equal the stored key bytes (equality was
byte equality), so the stored key is unchanged in that case; with a
resolver the stored key bytes become the new key pointer's bytes (the
counterexample above shows [1] being rewritten to [2]). -/
theorem C4_update_overwrites_in_place (m : icsmap) (key val : List Nat)
    (j : Nat) (m' : icsmap) (hcap : 0 < m.capacity)
    (hov : is_overloaded m = false)
    (hput : icsmap_put m key val true true = some (ICS_OK, m'))
    (hfh : find_hole m key = some (ICS_EXISTS, j)) :
    m'.size = m.size ∧ m'.capacity = m.capacity ∧
    m'.arr = m.arr.set j
      (Slot.occ ⟨key.take m.keysize, val.take m.valsize⟩) ∧
    (∀ i, i ≠ j → slotAt m' i = slotAt m i) ∧
    (m.get_key = none → key.length = m.keysize →
      ∀ r, slotAt m j = Slot.occ r → r.key.length = m.keysize →
        key.take m.keysize = r.key) := by
  obtain ⟨m1, hm1, hcase⟩ := icsmap_put_ok_inv m key val true true m' hput
  have hm1m : m1 = m := by
    rcases hm1 with ⟨_, h⟩ | ⟨h, _⟩
    · exact h
    · rw [hov] at h; cases h
  subst m1
  rcases hcase with ⟨j', hfh', hm'⟩ | ⟨st2, j2, hfh', hne, _, hm'⟩
  · rw [hfh'] at hfh
    simp only [Option.some.injEq, Prod.mk.injEq] at hfh
    have hj : j' = j := hfh.2
    subst hj
    subst hm'
    refine ⟨rfl, rfl, rfl, ?_, ?_⟩
    · intro i hi
      unfold slotAt
      exact getD_set_ne m.arr j' i _ _ (fun he => hi he.symm)
    · intro hres hklen r hslot hrlen
      -- find_hole reported EXISTS at j': the stored view equals the search view
      rw [find_hole] at hfh'
      have hstart : hash m (get_key m key) < m.capacity := Nat.mod_lt _ hcap
      obtain ⟨T, _, hjT, _, hdisj⟩ :=
        find_hole_loop_inv m (get_key m key) m.capacity _ ICS_EXISTS j' hstart hfh'
      rcases hdisj with ⟨hOK, _⟩ | ⟨_, r', hslot', heq⟩
      · cases hOK
      · rw [hslot'] at hslot
        injection hslot with hrr
        have hkey : get_key m key = key.take m.keysize := by
          simp only [get_key, hres]
        have hcand : get_key m r'.key = r'.key.take m.keysize := by
          simp only [get_key, hres]
        rw [hkey, hcand] at heq
        have hr'len : r'.key.length = m.keysize := by rw [hrr]; exact hrlen
        have hlen1 : (key.take m.keysize).length = m.keysize := by
          rw [List.length_take]; omega
        have hlen2 : (r'.key.take m.keysize).length = m.keysize := by
          rw [List.length_take]; omega
        have heq2 := (ics_equal_eq_true_iff (r'.key.take m.keysize)
          (key.take m.keysize) ((key.take m.keysize).length)
          (by rw [hlen1, hlen2]) rfl).mp heq
        calc key.take m.keysize = r'.key.take m.keysize := heq2.symm
          _ = r'.key := by
              conv_lhs => rw [← hr'len]
              exact List.take_length r'.key
          _ = r.key := by rw [hrr]
  · rw [hfh'] at hfh
    simp only [Option.some.injEq, Prod.mk.injEq] at hfh
    exact absurd hfh.1 hne

/-- The concrete map for the C4 witness: one live record at slot 1. -/
def c4w : icsmap :=
  { size := 1, capacity := 13, keysize := 1, valsize := 1, get_key := none,
    arr := (List.replicate 13 Slot.empty).set 1 (Slot.occ ⟨[1], [7]⟩) }

/-- The expected result of the C4 witness's put: value bytes replaced. -/
def c4w' : icsmap :=
  { size := 1, capacity := 13, keysize := 1, valsize := 1, get_key := none,
    arr := (List.replicate 13 Slot.empty).set 1 (Slot.occ ⟨[1], [9]⟩) }

/-- Witness for `C4_update_overwrites_in_place`: updating key [1] in a map
without a resolver leaves count and the stored key bytes unchanged. -/
theorem C4_witness :
    (icsmap_put c4w [1] [9] true true = some (ICS_OK, c4w')) ∧
    c4w'.size = c4w.size ∧ c4w'.capacity = c4w.capacity := by
  have hput : icsmap_put c4w [1] [9] true true
      = some (ICS_OK, { c4w with
          arr := c4w.arr.set 1 (Slot.occ (init_map_entry c4w [1] [9])) }) := by
    rfl
  have h := C4_update_overwrites_in_place c4w [1] [9] 1
    { c4w with arr := c4w.arr.set 1 (Slot.occ (init_map_entry c4w [1] [9])) }
    (by decide) (by decide) hput (by decide)
  refine ⟨?_, h.1, h.2.1⟩
  rw [hput]
  rfl

/-- Claim C5 (amended): immediately after a successful put — provided the
new count's percentage computation `count * 100` does not overflow
`uint32_t` — either `(count − 1) * 100 / capacity ≤ 33` (the pre-insertion
load was within the threshold) or the map was overloaded on entry, in which
case a resize was performed as part of that same call and the capacity
moved to the next prime above twice the old capacity.  The original claim's
`count * 100 / capacity ≤ 33` is off by exactly the record inserted after
the load check, as the counterexample (count 5 of 13, 38%) shows. -/
theorem C5_load_factor_amended (m : icsmap) (key val : List Nat)
    (a b : Bool) (m' : icsmap)
    (hput : icsmap_put m key val a b = some (ICS_OK, m'))
    (hof : m'.size * 100 < U32) :
    (m'.size - 1) * 100 / m'.capacity ≤ 33 ∨
    (is_overloaded m = true ∧
      m'.capacity = ics_next_prime (m.capacity * 2 % U32)) := by
  obtain ⟨m1, hm1, hcase⟩ := icsmap_put_ok_inv m key val a b m' hput
  rcases hm1 with ⟨hov, hm1m⟩ | ⟨hov, hres⟩
  · subst m1
    left
    have hnov : m.size * 100 % U32 / m.capacity ≤ 33 := by
      rw [is_overloaded] at hov
      simp only [decide_eq_false_iff_not, Nat.not_lt] at hov
      exact hov
    rcases hcase with ⟨j, _, hm'⟩ | ⟨st2, j, _, _, _, hm'⟩
    · subst hm'
      have hsz : m.size * 100 < U32 := by
        simp only at hof
        omega
      have hmod : m.size * 100 % U32 = m.size * 100 := Nat.mod_eq_of_lt hsz
      rw [hmod] at hnov
      calc ((m.size : Nat) - 1) * 100 / m.capacity
          ≤ m.size * 100 / m.capacity :=
            Nat.div_le_div_right (Nat.mul_le_mul_right 100 (by omega))
        _ ≤ 33 := hnov
    · subst hm'
      simp only at hof ⊢
      have hsz : m.size * 100 < U32 := by omega
      have hmod : m.size * 100 % U32 = m.size * 100 := Nat.mod_eq_of_lt hsz
      rw [hmod] at hnov
      simpa using hnov
  · right
    have ha : a = true := by
      cases a with
      | true => rfl
      | false =>
        rw [resize] at hres
        simp at hres
    subst ha
    have hcapm1 := (resize_ok_fields m ICS_OK m1 hres).2.2.2.2.1
    have hm'cap : m'.capacity = m1.capacity := by
      rcases hcase with ⟨j, _, hm'⟩ | ⟨st2, j, _, _, _, hm'⟩ <;> subst hm' <;> rfl
    exact ⟨hov, by rw [hm'cap, hcapm1]⟩

/-- Witness for `C5_load_factor_amended`: the first put on a fresh map. -/
def c5w' : icsmap :=
  { size := 1, capacity := 13, keysize := 1, valsize := 1, get_key := none,
    arr := (List.replicate 13 Slot.empty).set 0 (Slot.occ ⟨[0], [9]⟩) }

/-- Witness for `C5_load_factor_amended` at a concrete successful put. -/
theorem C5_witness :
    (icsmap_put (icsmap_init ⟨1, 1, none⟩) [0] [9] true true
        = some (ICS_OK, c5w') ∧ c5w'.size * 100 < U32) ∧
    ((c5w'.size - 1) * 100 / c5w'.capacity ≤ 33 ∨
      (is_overloaded (icsmap_init ⟨1, 1, none⟩) = true ∧
        c5w'.capacity
          = ics_next_prime ((icsmap_init ⟨1, 1, none⟩).capacity * 2 % U32))) := by
  have hput : icsmap_put (icsmap_init ⟨1, 1, none⟩) [0] [9] true true
      = some (ICS_OK, c5w') := by rfl
  exact ⟨⟨hput, by decide⟩,
    C5_load_factor_amended (icsmap_init ⟨1, 1, none⟩) [0] [9] true true c5w'
      hput (by decide)⟩

/-! ## Claim C8: key resolver makes equal views one logical key -/

/-- `ics_equal` is reflexive. -/
lemma ics_equal_refl (a : List Nat) (n : Nat) : ics_equal a a n = true := by
  simp [ics_equal]

/-- `get_key` only depends on the `keysize` and resolver fields. -/
lemma get_key_eq_of_fields (m1 m2 : icsmap) (hks : m2.keysize = m1.keysize)
    (hgk : m2.get_key = m1.get_key) (x : List Nat) :
    get_key m2 x = get_key m1 x := by
  rw [get_key, get_key, hks, hgk]

/-- Resolving the stored copy (`keysize` bytes) of a key yields the same
view as resolving the caller's key. -/
lemma get_key_take (m : icsmap) (k : List Nat) :
    get_key m (k.take m.keysize) = get_key m k := by
  rw [get_key, get_key, List.take_take, Nat.min_self]

/-- A `some` result of `find_hole` forces a positive capacity (the loop's
fuel is the capacity). -/
lemma find_hole_some_cap_pos (m : icsmap) (key : List Nat)
    (x : ics_status × Nat) (h : find_hole m key = some x) : 0 < m.capacity := by
  rcases Nat.eq_zero_or_pos m.capacity with hz | hp
  · rw [find_hole, hz, find_hole_loop] at h
    cases h
  · exact hp

/-- Claim C8: with a key resolver configured, the resolver is applied to
stored and supplied keys alike, so after a successful `put` through `k1`
any access through a second key pointer `k2` with the same resolved view
hits exactly the record that put wrote: `find_key`/`get`/`contains` find it
(the value copied out is the one just stored), `find_hole` reports it as
existing at the same slot, and a further put through `k2` overwrites that
single record in place, leaving `count` and every other slot unchanged
rather than creating or finding a second entry. -/
theorem C8_resolver_equal_views_single_entry (m : icsmap)
    (f : List Nat → List Nat) (k1 k2 v v' junk : List Nat) (m' : icsmap)
    (hres : m.get_key = some f)
    (harr : m.arr.length = m.capacity)
    (hview : get_key m k2 = get_key m k1)
    (hput : icsmap_put m k1 v true true = some (ICS_OK, m')) :
    ∃ j, find_key junk m' k2 = some (some j) ∧
      slotAt m' j = Slot.occ ⟨k1.take m'.keysize, v.take m'.valsize⟩ ∧
      icsmap_get junk m' k2 = some (ICS_OK, some (v.take m'.valsize)) ∧
      icsmap_contains junk m' k2 = some ICS_EXISTS ∧
      find_hole m' k2 = some (ICS_EXISTS, j) ∧
      (is_overloaded m' = false →
        icsmap_put m' k2 v' true true = some (ICS_OK,
          { m' with arr := m'.arr.set j (Slot.occ ⟨k2.take m'.keysize, v'.take m'.valsize⟩) })) := by
  obtain ⟨m1, hm1, hcase⟩ := icsmap_put_ok_inv m k1 v true true m' hput
  have hfields : m1.keysize = m.keysize ∧ m1.get_key = m.get_key ∧
      m1.arr.length = m1.capacity := by
    rcases hm1 with ⟨_, hm⟩ | ⟨_, hr⟩
    · subst m1; exact ⟨rfl, rfl, harr⟩
    · have := resize_ok_fields m ICS_OK m1 hr
      exact ⟨this.2.1, this.2.2.2.1, this.2.2.2.2.2⟩
  have hshape : ∃ j st0, find_hole m1 k1 = some (st0, j) ∧
      m'.arr = m1.arr.set j
        (Slot.occ ⟨k1.take m1.keysize, v.take m1.valsize⟩) ∧
      m'.capacity = m1.capacity ∧ m'.keysize = m1.keysize ∧
      m'.valsize = m1.valsize ∧ m'.get_key = m1.get_key := by
    rcases hcase with ⟨j, hfh, hm'⟩ | ⟨st2, j, hfh, _, _, hm'⟩
    · exact ⟨j, ICS_EXISTS, hfh, by rw [hm']; rfl, by rw [hm'], by rw [hm'],
        by rw [hm'], by rw [hm']⟩
    · exact ⟨j, st2, hfh, by rw [hm']; rfl, by rw [hm'], by rw [hm'],
        by rw [hm'], by rw [hm']⟩
  obtain ⟨j, st0, hfh, harr', hcap', hks', hvs', hgk'⟩ := hshape
  have hcpos : 0 < m1.capacity := find_hole_some_cap_pos m1 k1 _ hfh
  rw [find_hole] at hfh
  set start := hash m1 (get_key m1 k1) with hstartdef
  have hstart : start < m1.capacity := Nat.mod_lt _ hcpos
  obtain ⟨T, hT, hjT, hpre, hdisj⟩ :=
    find_hole_loop_inv m1 (get_key m1 k1) m1.capacity start st0 j hstart hfh
  have hgk1 : ∀ x, get_key m1 x = get_key m x :=
    get_key_eq_of_fields m m1 hfields.1 hfields.2.1
  have hgk2 : ∀ x, get_key m' x = get_key m1 x :=
    get_key_eq_of_fields m1 m' hks' hgk'
  have hview' : get_key m' k2 = get_key m1 k1 := by
    rw [hgk2, hgk1, hview, ← hgk1]
  have hstart' : hash m' (get_key m' k2) = start := by
    rw [hview']
    show hash_fn (get_key m1 k1) % m'.capacity = start
    rw [hcap']
    rfl
  have hprobe' : ∀ t, probe m' start t = probe m1 start t := by
    intro t; rw [probe, probe, hcap']
  have harrlen' : m'.arr.length = m'.capacity := by
    rw [harr', List.length_set, hfields.2.2, hcap']
  have hjlt : j < m1.capacity := by
    rw [hjT]; exact probe_lt _ _ _ hcpos
  have hslotj : slotAt m' j
      = Slot.occ ⟨k1.take m1.keysize, v.take m1.valsize⟩ := by
    rw [slotAt, harr']
    exact getD_set_self m1.arr j _ _ (by rw [hfields.2.2]; exact hjlt)
  have hkeyview : get_key m' (k1.take m1.keysize) = get_key m1 k1 := by
    rw [← hks', get_key_take m' k1]
    exact hgk2 k1
  have hmatchj : ics_equal (get_key m' (k1.take m1.keysize))
      (get_key m' k2) (get_key m' k2).length = true := by
    rw [hkeyview, hview']
    exact ics_equal_refl _ _
  have hpre' : ∀ t < T,
      occ_mismatch m' (get_key m' k2) (probe m' start t) = true := by
    intro t ht
    have hmis := hpre t ht
    have hne : probe m1 start t ≠ j := by
      rw [hjT]
      intro he
      have := probe_inj m1 start t T hcpos (by omega) (by omega) he
      omega
    have hslot_eq : slotAt m' (probe m1 start t)
        = slotAt m1 (probe m1 start t) := by
      rw [slotAt, slotAt, harr']
      exact getD_set_ne m1.arr j _ _ _ (fun h => hne h.symm)
    rw [occ_mismatch] at hmis ⊢
    rw [hprobe', hslot_eq]
    rcases hsl : slotAt m1 (probe m1 start t) with _ | _ | r <;>
      rw [hsl] at hmis
    · exact hmis
    · exact hmis
    · dsimp only at hmis ⊢
      rw [hgk2, hview']
      exact hmis
  have hjT' : j = probe m' start T := by rw [hprobe']; exact hjT
  have hslotj' : slotAt m' (probe m' start T)
      = Slot.occ ⟨k1.take m1.keysize, v.take m1.valsize⟩ := by
    rw [← hjT']; exact hslotj
  have hstartlt' : start < m'.capacity := by rw [hcap']; exact hstart
  have hTlt' : T < m'.capacity := by rw [hcap']; exact hT
  -- find_hole on m' through k2 reports the record as existing at j
  have hfh2 : find_hole m' k2 = some (ICS_EXISTS, j) := by
    rw [find_hole, hstart']
    have := (find_hole_loop_finds m' (get_key m' k2) start T m'.capacity
      hstartlt' hTlt' hpre').2 _ hslotj' hmatchj
    rw [this, ← hjT']
  -- find_key on m' through k2 finds the record at j
  have hfk2 : find_key junk m' k2 = some (some j) := by
    rw [find_key, hstart']
    have := find_key_loop_finds m' junk (get_key m' k2) start T
      hstartlt' hTlt' hpre' _ hslotj' hmatchj (m'.capacity + 1) 0
      (by omega) (by omega)
    rw [probe_zero m' start hstartlt'] at this
    rw [this, ← hjT']
  refine ⟨j, hfk2, ?_, ?_, ?_, hfh2, ?_⟩
  · rw [hslotj, hks', hvs']
  · rw [icsmap_get, hfk2]
    dsimp only
    rw [hslotj]
    dsimp only
    rw [List.take_take, hvs', Nat.min_self]
  · rw [icsmap_contains, hfk2]
  · intro hnov
    rw [icsmap_put, if_neg (by simp [hnov])]
    dsimp only
    rw [if_pos rfl, hfh2]
    rfl

/-- The state after the C8 witness's first put: the record for key bytes [1]
(resolved view [0] under the constant resolver `c4f`) sits at slot 0. -/
def c8w' : icsmap :=
  { size := 1, capacity := 13, keysize := 1, valsize := 1,
    get_key := some c4f,
    arr := (List.replicate 13 Slot.empty).set 0 (Slot.occ ⟨[1], [7]⟩) }

/-- Witness for `C8_resolver_equal_views_single_entry`: with the constant
resolver, key pointers [1] and [2] resolve to the same view; after putting
through [1], all accesses through [2] hit that single record. -/
theorem C8_witness :
    ((icsmap_init ⟨1, 1, some c4f⟩).get_key = some c4f ∧
     (icsmap_init ⟨1, 1, some c4f⟩).arr.length
        = (icsmap_init ⟨1, 1, some c4f⟩).capacity ∧
     get_key (icsmap_init ⟨1, 1, some c4f⟩) [2]
        = get_key (icsmap_init ⟨1, 1, some c4f⟩) [1] ∧
     icsmap_put (icsmap_init ⟨1, 1, some c4f⟩) [1] [7] true true
        = some (ICS_OK, c8w')) ∧
    (∃ j, find_key [] c8w' [2] = some (some j) ∧
      slotAt c8w' j
        = Slot.occ ⟨[1].take c8w'.keysize, [7].take c8w'.valsize⟩ ∧
      icsmap_get [] c8w' [2] = some (ICS_OK, some ([7].take c8w'.valsize)) ∧
      icsmap_contains [] c8w' [2] = some ICS_EXISTS ∧
      find_hole c8w' [2] = some (ICS_EXISTS, j) ∧
      (is_overloaded c8w' = false →
        icsmap_put c8w' [2] [9] true true = some (ICS_OK,
          { c8w' with arr := c8w'.arr.set j (Slot.occ ⟨[2].take c8w'.keysize, [9].take c8w'.valsize⟩) }))) := by
  have hput : icsmap_put (icsmap_init ⟨1, 1, some c4f⟩) [1] [7] true true
      = some (ICS_OK, c8w') := by rfl
  exact ⟨⟨rfl, rfl, rfl, hput⟩,
    C8_resolver_equal_views_single_entry (icsmap_init ⟨1, 1, some c4f⟩) c4f
      [1] [2] [7] [9] [] c8w' rfl rfl rfl hput⟩

/-! ## Reachable states and the storage invariant (claim C6) -/

/-- Count of live records satisfying a predicate. -/
def recCount (p : map_rec → Bool) (l : List Slot) : Nat :=
  l.countP fun s =>
    match s with
    | Slot.occ r => p r
    | _ => false

lemma occCount_replicate (n : Nat) :
    occCount (List.replicate n Slot.empty) = 0 := by
  induction n with
  | zero => rfl
  | succ n ih =>
    simp only [List.replicate, occCount, List.countP_cons] at ih ⊢
    simpa [is_occ] using ih

lemma recCount_replicate (p : map_rec → Bool) (n : Nat) :
    recCount p (List.replicate n Slot.empty) = 0 := by
  induction n with
  | zero => rfl
  | succ n ih =>
    simp only [List.replicate, recCount, List.countP_cons] at ih ⊢
    simpa using ih

lemma occCount_set_nonocc (l : List Slot) (j : Nat) (r : map_rec)
    (hj : j < l.length) (h : is_occ (l.getD j Slot.empty) = false) :
    occCount (l.set j (Slot.occ r)) = occCount l + 1 := by
  induction l generalizing j with
  | nil => simp at hj
  | cons s rest ih =>
    cases j with
    | zero =>
      simp only [List.getD] at h
      simp only [List.set, occCount, List.countP_cons]
      cases s with
      | empty => simp [is_occ]
      | tomb => simp [is_occ]
      | occ r0 => simp [is_occ] at h
    | succ j' =>
      simp only [List.set, occCount, List.countP_cons]
      have := ih j' (by simpa using hj) (by simpa using h)
      simp only [occCount] at this
      omega

lemma recCount_set_nonocc (p : map_rec → Bool) (l : List Slot) (j : Nat)
    (r : map_rec) (hj : j < l.length)
    (h : is_occ (l.getD j Slot.empty) = false) :
    recCount p (l.set j (Slot.occ r))
      = recCount p l + (if p r then 1 else 0) := by
  induction l generalizing j with
  | nil => simp at hj
  | cons s rest ih =>
    cases j with
    | zero =>
      simp only [List.getD] at h
      simp only [List.set, recCount, List.countP_cons]
      cases s with
      | empty => simp
      | tomb => simp
      | occ r0 => simp [is_occ] at h
    | succ j' =>
      simp only [List.set, recCount, List.countP_cons]
      have := ih j' (by simpa using hj) (by simpa using h)
      simp only [recCount] at this
      omega

lemma occCount_set_occ (l : List Slot) (j : Nat) (r : map_rec)
    (hj : j < l.length) (h : is_occ (l.getD j Slot.empty) = true) :
    occCount (l.set j (Slot.occ r)) = occCount l := by
  induction l generalizing j with
  | nil => simp at hj
  | cons s rest ih =>
    cases j with
    | zero =>
      simp only [List.getD] at h
      simp only [List.set, occCount, List.countP_cons]
      cases s with
      | empty => simp [is_occ] at h
      | tomb => simp [is_occ] at h
      | occ r0 => simp [is_occ]
    | succ j' =>
      simp only [List.set, occCount, List.countP_cons]
      have := ih j' (by simpa using hj) (by simpa using h)
      simp only [occCount] at this
      omega

lemma occCount_set_tomb (l : List Slot) (j : Nat)
    (hj : j < l.length) (h : is_occ (l.getD j Slot.empty) = true) :
    occCount (l.set j Slot.tomb) + 1 = occCount l := by
  induction l generalizing j with
  | nil => simp at hj
  | cons s rest ih =>
    cases j with
    | zero =>
      simp only [List.getD] at h
      simp only [List.set, occCount, List.countP_cons]
      cases s with
      | empty => simp [is_occ] at h
      | tomb => simp [is_occ] at h
      | occ r0 => simp [is_occ]
    | succ j' =>
      simp only [List.set, occCount, List.countP_cons]
      have := ih j' (by simpa using hj) (by simpa using h)
      simp only [occCount] at this
      omega

/-- A storage array with fewer live records than slots has a non-live slot. -/
lemma exists_nonocc (l : List Slot) (h : occCount l < l.length) :
    ∃ j < l.length, is_occ (l.getD j Slot.empty) = false := by
  by_contra hc
  push_neg at hc
  have hall : ∀ s ∈ l, is_occ s = true := by
    intro s hs
    obtain ⟨j, hj, hjs⟩ := List.mem_iff_getElem.mp hs
    have := hc j hj
    rw [List.getD_eq_getElem l Slot.empty hj, hjs] at this
    simpa using this
  have h2 : occCount l = l.length := by
    rw [occCount]
    exact List.countP_eq_length.mpr hall
  omega

/-- A full storage array (as many live records as slots) is live everywhere. -/
lemma all_occ_of_full (l : List Slot) (h : occCount l = l.length) :
    ∀ j < l.length, ∃ r, l.getD j Slot.empty = Slot.occ r := by
  intro j hj
  have hall := List.countP_eq_length.mp h
  have hmem : l.getD j Slot.empty ∈ l := by
    rw [List.getD_eq_getElem l Slot.empty hj]
    exact List.getElem_mem hj
  have := hall _ hmem
  rcases hs : l.getD j Slot.empty with _ | _ | r <;> rw [hs] at this
  · simp [is_occ] at this
  · simp [is_occ] at this
  · exact ⟨r, rfl⟩

/-- States reachable from initialization by sequences of successful puts and
arbitrary removes (all allocations succeeding; `junk` ranges over whatever
the sentinel reads return). -/
inductive Reachable : icsmap → Prop where
  | init (cfg : icsmap_cfg) : Reachable (icsmap_init cfg)
  | put (m : icsmap) (k v : List Nat) (m' : icsmap) : Reachable m →
      icsmap_put m k v true true = some (ICS_OK, m') → Reachable m'
  | remove (m : icsmap) (junk k : List Nat) (st : ics_status) (m' : icsmap) :
      Reachable m → icsmap_remove junk m k = some (st, m') → Reachable m'

/-- Any index `find_key` delivers is below the capacity. -/
lemma find_key_loop_some_lt (m : icsmap) (junk kv : List Nat) (start : Nat) :
    ∀ fuel i i', i < m.capacity →
      find_key_loop m junk kv start i fuel = some (some i') →
      i' < m.capacity := by
  intro fuel
  induction fuel with
  | zero => intro i i' _ h; rw [find_key_loop] at h; cases h
  | succ fuel ih =>
    intro i i' hi h
    rw [find_key_loop] at h
    rcases hslot : slotAt m i with _ | _ | r <;> rw [hslot] at h
    · cases h
    · dsimp only at h
      by_cases heq : ics_equal (get_key m junk) kv kv.length = true
      · rw [if_pos heq] at h
        simp only [Option.some.injEq] at h
        omega
      · rw [if_neg heq] at h
        by_cases hcyc : (i + 1) % m.capacity = start
        · rw [if_pos hcyc] at h; cases h
        · rw [if_neg hcyc] at h
          exact ih _ i' (Nat.mod_lt _ (by omega)) h
    · dsimp only at h
      by_cases heq : ics_equal (get_key m r.key) kv kv.length = true
      · rw [if_pos heq] at h
        simp only [Option.some.injEq] at h
        omega
      · rw [if_neg heq] at h
        by_cases hcyc : (i + 1) % m.capacity = start
        · rw [if_pos hcyc] at h; cases h
        · rw [if_neg hcyc] at h
          exact ih _ i' (Nat.mod_lt _ (by omega)) h

lemma find_key_some_lt (junk : List Nat) (m : icsmap) (key : List Nat)
    (i : Nat) (harr : m.arr.length = m.capacity)
    (h : find_key junk m key = some (some i)) : i < m.capacity := by
  rw [find_key] at h
  rcases Nat.eq_zero_or_pos m.capacity with hz | hp
  · exfalso
    have hemp : slotAt m (hash m (get_key m key)) = Slot.empty := by
      rw [slotAt]
      apply List.getD_eq_default
      omega
    rw [find_key_loop, hemp] at h
    cases h
  · exact find_key_loop_some_lt m junk (get_key m key) _ _ _ i
      (Nat.mod_lt _ hp) h

/-- The relocation loop of a successful resize moves every live record into
a previously non-live slot, so the number of live slots adds up. -/
lemma rehash_ok_occCount :
    ∀ (l : List Slot) (acc : icsmap) (m2 : icsmap),
      acc.arr.length = acc.capacity →
      rehash acc l = some (ICS_OK, m2) →
      occCount m2.arr = occCount acc.arr + occCount l := by
  intro l
  induction l with
  | nil =>
    intro acc m2 _ h
    simp [rehash] at h
    rw [← h]
    simp [occCount]
  | cons s rest ih =>
    intro acc m2 hlen h
    cases s with
    | empty =>
      rw [rehash] at h
      have := ih acc m2 hlen h
      simp [occCount, List.countP_cons, is_occ] at this ⊢
      omega
    | tomb =>
      rw [rehash] at h
      have := ih acc m2 hlen h
      simp [occCount, List.countP_cons, is_occ] at this ⊢
      omega
    | occ r =>
      rw [rehash] at h
      rcases hfh : find_hole acc r.key with _ | ⟨st', j⟩
      · rw [hfh] at h; cases h
      · rw [hfh] at h
        dsimp only at h
        by_cases hst : st' = ICS_OK
        · rw [if_pos hst] at h
          have hcpos : 0 < acc.capacity := find_hole_some_cap_pos acc r.key _ hfh
          rw [find_hole] at hfh
          have hstart : hash acc (get_key acc r.key) < acc.capacity :=
            Nat.mod_lt _ hcpos
          obtain ⟨T, hT, hjT, _, hdisj⟩ :=
            find_hole_loop_inv acc _ _ _ _ _ hstart hfh
          have hjlt : j < acc.arr.length := by
            rw [hlen, hjT]; exact probe_lt _ _ _ hcpos
          have hnonocc : is_occ (acc.arr.getD j Slot.empty) = false := by
            rcases hdisj with ⟨_, hslot⟩ | ⟨hst2, _⟩
            · rcases hslot with hs | hs <;> rw [slotAt] at hs <;> rw [hs] <;> rfl
            · rw [hst] at hst2; cases hst2
          have hrec := ih _ m2 (by simp [List.length_set, hlen]) h
          rw [occCount_set_nonocc acc.arr j r hjlt hnonocc] at hrec
          simp [occCount, List.countP_cons, is_occ] at hrec ⊢
          omega
        · rw [if_neg hst] at h
          simp only [Option.some.injEq, Prod.mk.injEq] at h
          exact absurd h.1 hst

/-- A successful resize preserves the number of live slots. -/
lemma resize_ok_occCount (m m2 : icsmap)
    (h : resize m true = some (ICS_OK, m2)) :
    occCount m2.arr = occCount m.arr := by
  rw [resize, if_pos rfl] at h
  have := rehash_ok_occCount m.arr _ m2 (by simp) h
  simpa [occCount_replicate] using this

/-- The storage invariant of every reachable state: the slot array has
exactly `capacity` cells and `count` equals the number of live slots. -/
lemma reachable_storage_inv (m : icsmap) (h : Reachable m) :
    m.arr.length = m.capacity ∧ occCount m.arr = m.size := by
  induction h with
  | init cfg =>
    refine ⟨by simp [icsmap_init], ?_⟩
    show occCount (List.replicate 13 Slot.empty) = 0
    exact occCount_replicate 13
  | put m k v m' hr hput ih =>
    obtain ⟨m1, hm1, hcase⟩ := icsmap_put_ok_inv m k v true true m' hput
    have hinv1 : m1.arr.length = m1.capacity ∧ occCount m1.arr = m1.size := by
      rcases hm1 with ⟨_, h1⟩ | ⟨_, hres⟩
      · subst m1; exact ih
      · have hf := resize_ok_fields m ICS_OK m1 hres
        have ho := resize_ok_occCount m m1 hres
        exact ⟨by rw [hf.2.2.2.2.2], by rw [ho, ih.2, hf.1]⟩
    have hcpos : 0 < m1.capacity := by
      rcases hcase with ⟨j, hfh, _⟩ | ⟨st2, j, hfh, _, _, _⟩ <;>
        exact find_hole_some_cap_pos m1 k _ hfh
    rcases hcase with ⟨j, hfh, hm'⟩ | ⟨st2, j, hfh, hne, _, hm'⟩
    · -- overwrite in place at a live slot
      rw [find_hole] at hfh
      have hstart : hash m1 (get_key m1 k) < m1.capacity := Nat.mod_lt _ hcpos
      obtain ⟨T, hT, hjT, _, hdisj⟩ :=
        find_hole_loop_inv m1 _ _ _ _ _ hstart hfh
      have hjlt : j < m1.arr.length := by
        rw [hinv1.1, hjT]; exact probe_lt _ _ _ hcpos
      have hocc : is_occ (m1.arr.getD j Slot.empty) = true := by
        rcases hdisj with ⟨hst2, _⟩ | ⟨_, r', hs, _⟩
        · cases hst2
        · rw [slotAt] at hs; rw [hs]; rfl
      subst hm'
      exact ⟨by simp [List.length_set, hinv1.1],
        by rw [show ({ m1 with arr := m1.arr.set j (Slot.occ (init_map_entry m1 k v)) } : icsmap).arr = m1.arr.set j (Slot.occ (init_map_entry m1 k v)) from rfl,
          occCount_set_occ m1.arr j _ hjlt hocc]; exact hinv1.2⟩
    · -- fresh insert into a non-live slot
      rw [find_hole] at hfh
      have hstart : hash m1 (get_key m1 k) < m1.capacity := Nat.mod_lt _ hcpos
      obtain ⟨T, hT, hjT, _, hdisj⟩ :=
        find_hole_loop_inv m1 _ _ _ _ _ hstart hfh
      have hjlt : j < m1.arr.length := by
        rw [hinv1.1, hjT]; exact probe_lt _ _ _ hcpos
      have hnonocc : is_occ (m1.arr.getD j Slot.empty) = false := by
        rcases hdisj with ⟨_, hslot⟩ | ⟨hst2, _⟩
        · rcases hslot with hs | hs <;> rw [slotAt] at hs <;> rw [hs] <;> rfl
        · exact absurd hst2 hne
      subst hm'
      refine ⟨by simp [List.length_set, hinv1.1], ?_⟩
      rw [show ({ m1 with arr := m1.arr.set j (Slot.occ (init_map_entry m1 k v)), size := m1.size + 1 } : icsmap).arr = m1.arr.set j (Slot.occ (init_map_entry m1 k v)) from rfl,
        occCount_set_nonocc m1.arr j _ hjlt hnonocc, hinv1.2]
  | remove m junk k st m' hr hrem ih =>
    rw [icsmap_remove] at hrem
    rcases hfk : find_key junk m k with _ | i2
    · rw [hfk] at hrem; cases hrem
    rcases i2 with _ | i
    · rw [hfk] at hrem
      simp only [Option.some.injEq, Prod.mk.injEq] at hrem
      rw [← hrem.2]
      exact ih
    · rw [hfk] at hrem
      dsimp only at hrem
      rcases hslot : slotAt m i with _ | _ | r <;> rw [hslot] at hrem
      · cases hrem
      · cases hrem
      · simp only [Option.some.injEq, Prod.mk.injEq] at hrem
        have hilt : i < m.arr.length := by
          rw [ih.1]
          exact find_key_some_lt junk m k i ih.1 hfk
        have hocc : is_occ (m.arr.getD i Slot.empty) = true := by
          rw [slotAt] at hslot; rw [hslot]; rfl
        have hpos : 0 < m.size := by
          have hmem : m.arr.getD i Slot.empty ∈ m.arr :=
            by rw [List.getD_eq_getElem m.arr Slot.empty hilt]
               exact List.getElem_mem hilt
          have : 0 < occCount m.arr := by
            rw [occCount]
            exact List.countP_pos_iff.mpr ⟨_, hmem, hocc⟩
          omega
        rw [← hrem.2]
        have hset := occCount_set_tomb m.arr i hilt hocc
        refine ⟨by simp [List.length_set, ih.1], ?_⟩
        show occCount (m.arr.set i Slot.tomb) = m.size - 1
        omega

/-- Claim C6 (amended): in every state reachable by put/get/remove (with all
allocations succeeding), `count` equals the number of Occupied slots and is
at most — but not always strictly less than — the capacity; `find_key`'s
loop always terminates (it has the full-cycle break), and `find_hole`'s
loop terminates whenever `count < capacity` still holds.  The strict
invariant `count < capacity` claimed by the spec is refutable: after about
1.35·10^8 inserts the 32-bit overflow of `count * 100` in `is_overloaded`
permanently disables resizing, the table fills completely, and `find_hole`
then loops forever on any fresh key (see the counterexample). -/
theorem C6_storage_invariant_amended (m : icsmap) (h : Reachable m) :
    occCount m.arr = m.size ∧ m.size ≤ m.capacity ∧
    (∀ junk k, (find_key junk m k).isSome = true) ∧
    (m.size < m.capacity → ∀ k,
      ∃ st j, find_hole m k = some (st, j)) := by
  obtain ⟨hlen, hocc⟩ := reachable_storage_inv m h
  have hle : m.size ≤ m.capacity := by
    have := List.countP_le_length (l := m.arr) fun s => is_occ s
    rw [occCount] at hocc
    omega
  refine ⟨hocc, hle, ?_, ?_⟩
  · intro junk k
    rcases Nat.eq_zero_or_pos m.capacity with hz | hp
    · have hemp : slotAt m (hash m (get_key m k)) = Slot.empty := by
        rw [slotAt]
        apply List.getD_eq_default
        omega
      rw [find_key, find_key_loop, hemp]
      rfl
    · exact find_key_total junk m k hp
  · intro hsz k
    have hp : 0 < m.capacity := by omega
    obtain ⟨j0, hj0, hocc0⟩ := exists_nonocc m.arr (by omega)
    have hsome := find_hole_loop_total m (get_key m k)
      (hash m (get_key m k)) (Nat.mod_lt _ hp) hlen
      ⟨j0, by omega, by rw [slotAt]; exact hocc0⟩
    rw [find_hole]
    exact hsome

/-- Witness for `C6_storage_invariant_amended` at the freshly initialized
map (reachable by construction). -/
theorem C6_amended_witness :
    Reachable (icsmap_init ⟨1, 1, none⟩) ∧
    occCount (icsmap_init ⟨1, 1, none⟩).arr
      = (icsmap_init ⟨1, 1, none⟩).size ∧
    (icsmap_init ⟨1, 1, none⟩).size ≤ (icsmap_init ⟨1, 1, none⟩).capacity :=
  ⟨Reachable.init _,
    (C6_storage_invariant_amended _ (Reachable.init _)).1,
    (C6_storage_invariant_amended _ (Reachable.init _)).2.1⟩

/-! ## A reachable state with a completely full table (refuting strict
`count < capacity`)

Strategy: repeatedly put fresh 7-byte keys.  While the capacity is below
`2^32/33 ≈ 1.3·10^8`, overload checks fire normally and resizes keep the
chain of prime capacities growing; once the capacity passes that bound,
`count * 100` can no longer push the `uint32_t` percentage above 33, so no
resize ever fires again and inserts continue until every slot is Occupied.
The construction below carries exactly the invariants needed: distinct
supply keys (so every resize relocation succeeds) and no tombstones. -/

/-- The `n`-th supply key: 7 base-256 digits. -/
def keyOf (n : Nat) : List Nat :=
  [n % 256, n / 256 % 256, n / 65536 % 256, n / 16777216 % 256,
   n / 4294967296 % 256, n / 1099511627776 % 256,
   n / 281474976710656 % 256]

lemma keyOf_length (n : Nat) : (keyOf n).length = 7 := rfl

lemma keyOf_inj (a b : Nat) (ha : a < 256 ^ 7) (hb : b < 256 ^ 7)
    (h : keyOf a = keyOf b) : a = b := by
  simp only [keyOf, List.cons.injEq, and_true] at h
  norm_num at ha hb
  omega

/-- If every slot of the table is live with a view different from the
search view, `find_hole`'s loop never exits: the C loop runs forever, the
fuelled model returns `none`. -/
lemma find_hole_loop_all_occ_none (m : icsmap) (kv : List Nat)
    (hall : ∀ j < m.capacity, occ_mismatch m kv j = true) :
    ∀ fuel i, i < m.capacity → find_hole_loop m kv i fuel = none := by
  intro fuel
  induction fuel with
  | zero => intro i _; rfl
  | succ fuel ih =>
    intro i hi
    have hmis := hall i hi
    rw [occ_mismatch] at hmis
    rcases hslot : slotAt m i with _ | _ | r <;> rw [hslot] at hmis
    · simp at hmis
    · simp at hmis
    · simp only [Bool.not_eq_true'] at hmis
      rw [find_hole_loop, hslot]
      dsimp only
      rw [if_neg (by simp [hmis])]
      exact ih _ (Nat.mod_lt _ (by omega))

/-- Invariant of the table-filling construction: configuration (7-byte keys,
1-byte values, no resolver), storage invariant, `n` records whose keys are
the distinct supply keys `keyOf 0 … keyOf (n-1)`, no tombstones, and the
capacity still within the wrap-free range. -/
def FillInv (m : icsmap) (n : Nat) : Prop :=
  m.keysize = 7 ∧ m.valsize = 1 ∧ m.get_key = none ∧
  m.arr.length = m.capacity ∧ occCount m.arr = m.size ∧ m.size = n ∧
  0 < m.capacity ∧ m.capacity < 2 ^ 30 ∧
  Slot.tomb ∉ m.arr ∧
  (∀ r, Slot.occ r ∈ m.arr → ∃ i < n, r.key = keyOf i) ∧
  (∀ i : Nat, recCount (fun r => r.key == keyOf i) m.arr ≤ 1)

/-- Relocation succeeds when the destination still has room, and all keys —
already relocated and still incoming — are supply keys appearing at most
once overall: every record lands in a hole (`ICS_OK`), and the record
counts, key multiplicities, memberships and absence of tombstones carry
over to the rebuilt array. -/
lemma rehash_fill :
    ∀ (l : List Slot) (acc : icsmap),
      acc.get_key = none → acc.keysize = 7 →
      acc.arr.length = acc.capacity →
      Slot.tomb ∉ acc.arr →
      occCount acc.arr + occCount l < acc.capacity →
      (∀ r, Slot.occ r ∈ acc.arr → ∃ i, r.key = keyOf i) →
      (∀ r, Slot.occ r ∈ l → ∃ i, r.key = keyOf i) →
      (∀ i : Nat, recCount (fun rr => rr.key == keyOf i) acc.arr
        + recCount (fun rr => rr.key == keyOf i) l ≤ 1) →
      ∃ m2, rehash acc l = some (ICS_OK, m2) ∧
        m2.size = acc.size ∧ m2.capacity = acc.capacity ∧
        m2.keysize = acc.keysize ∧ m2.valsize = acc.valsize ∧
        m2.get_key = acc.get_key ∧ m2.arr.length = acc.arr.length ∧
        Slot.tomb ∉ m2.arr ∧
        occCount m2.arr = occCount acc.arr + occCount l ∧
        (∀ i : Nat, recCount (fun rr => rr.key == keyOf i) m2.arr
          = recCount (fun rr => rr.key == keyOf i) acc.arr
            + recCount (fun rr => rr.key == keyOf i) l) ∧
        (∀ r, Slot.occ r ∈ m2.arr → Slot.occ r ∈ acc.arr ∨ Slot.occ r ∈ l) := by
  intro l
  induction l with
  | nil =>
    intro acc hres hks harr htomb hsum hsupa hsupl hone
    refine ⟨acc, rfl, rfl, rfl, rfl, rfl, rfl, rfl, htomb,
      by simp [occCount], fun i => by simp [recCount], fun r hr => Or.inl hr⟩
  | cons s rest ih =>
    intro acc hres hks harr htomb hsum hsupa hsupl hone
    cases s with
    | empty =>
      have hocc_cons : occCount (Slot.empty :: rest) = occCount rest := by
        simp [occCount, List.countP_cons, is_occ]
      have hsupl' : ∀ r2, Slot.occ r2 ∈ rest → ∃ i, r2.key = keyOf i :=
        fun r2 h => hsupl r2 (List.mem_cons_of_mem _ h)
      have hone' : ∀ i : Nat, recCount (fun rr => rr.key == keyOf i) acc.arr
          + recCount (fun rr => rr.key == keyOf i) rest ≤ 1 := by
        intro i
        have h3 := hone i
        have hc2 : recCount (fun rr => rr.key == keyOf i) (Slot.empty :: rest)
            = recCount (fun rr => rr.key == keyOf i) rest := by
          simp [recCount, List.countP_cons]
        omega
      obtain ⟨m2, hm2, hsz, hcap2, hks2, hvs2, hgk2, hlen2, htomb2, hocc2,
        hrec2, hmem2⟩ := ih acc hres hks harr htomb (by omega) hsupa hsupl' hone'
      refine ⟨m2, by rw [rehash]; exact hm2, hsz, hcap2, hks2, hvs2, hgk2,
        hlen2, htomb2, by omega, ?_, ?_⟩
      · intro i
        have h4 := hrec2 i
        have hc2 : recCount (fun rr => rr.key == keyOf i) (Slot.empty :: rest)
            = recCount (fun rr => rr.key == keyOf i) rest := by
          simp [recCount, List.countP_cons]
        omega
      · intro r2 h
        rcases hmem2 r2 h with h | h
        · exact Or.inl h
        · exact Or.inr (List.mem_cons_of_mem _ h)
    | tomb =>
      have hocc_cons : occCount (Slot.tomb :: rest) = occCount rest := by
        simp [occCount, List.countP_cons, is_occ]
      have hsupl' : ∀ r2, Slot.occ r2 ∈ rest → ∃ i, r2.key = keyOf i :=
        fun r2 h => hsupl r2 (List.mem_cons_of_mem _ h)
      have hone' : ∀ i : Nat, recCount (fun rr => rr.key == keyOf i) acc.arr
          + recCount (fun rr => rr.key == keyOf i) rest ≤ 1 := by
        intro i
        have h3 := hone i
        have hc2 : recCount (fun rr => rr.key == keyOf i) (Slot.tomb :: rest)
            = recCount (fun rr => rr.key == keyOf i) rest := by
          simp [recCount, List.countP_cons]
        omega
      obtain ⟨m2, hm2, hsz, hcap2, hks2, hvs2, hgk2, hlen2, htomb2, hocc2,
        hrec2, hmem2⟩ := ih acc hres hks harr htomb (by omega) hsupa hsupl' hone'
      refine ⟨m2, by rw [rehash]; exact hm2, hsz, hcap2, hks2, hvs2, hgk2,
        hlen2, htomb2, by omega, ?_, ?_⟩
      · intro i
        have h4 := hrec2 i
        have hc2 : recCount (fun rr => rr.key == keyOf i) (Slot.tomb :: rest)
            = recCount (fun rr => rr.key == keyOf i) rest := by
          simp [recCount, List.countP_cons]
        omega
      · intro r2 h
        rcases hmem2 r2 h with h | h
        · exact Or.inl h
        · exact Or.inr (List.mem_cons_of_mem _ h)
    | occ r =>
      obtain ⟨i0, hri0⟩ := hsupl r (List.mem_cons_self _ _)
      have hrlen : r.key.length = 7 := by rw [hri0]; exact keyOf_length i0
      have hocc_cons : occCount (Slot.occ r :: rest) = occCount rest + 1 := by
        simp [occCount, List.countP_cons, is_occ]
      have hcap : 0 < acc.capacity := by omega
      have hstart : hash acc (get_key acc r.key) < acc.capacity :=
        Nat.mod_lt _ hcap
      have hnonocc : ∃ j < acc.capacity, is_occ (slotAt acc j) = false := by
        have h1 : occCount acc.arr < acc.arr.length := by omega
        obtain ⟨j, hj, hocc⟩ := exists_nonocc acc.arr h1
        exact ⟨j, by omega, hocc⟩
      obtain ⟨st, j, hfh⟩ := find_hole_loop_total acc (get_key acc r.key)
        (hash acc (get_key acc r.key)) hstart harr hnonocc
      have hfhole : find_hole acc r.key = some (st, j) := hfh
      obtain ⟨T, hTfuel, hjT, hpre, hcase⟩ := find_hole_loop_inv acc
        (get_key acc r.key) acc.capacity (hash acc (get_key acc r.key))
        st j hstart hfh
      have hjlt : j < acc.capacity := by rw [hjT]; exact probe_lt acc _ _ hcap
      have hjarr : j < acc.arr.length := by omega
      have hga : ∀ x : List Nat, get_key acc x = x.take 7 := by
        intro x; simp [get_key, hres, hks]
      have htake : ∀ x : List Nat, x.length = 7 → x.take 7 = x := by
        intro x hx; rw [← hx]; simp
      rcases hcase with ⟨hstOK, hslotj⟩ | ⟨hstEX, r', hslotr', heqr'⟩
      · -- the probe ended at a hole: relocate and recurse
        subst hstOK
        have hjnonocc : is_occ (acc.arr.getD j Slot.empty) = false := by
          rcases hslotj with he | ht
          · rw [slotAt] at he; rw [he]; rfl
          · rw [slotAt] at ht; rw [ht]; rfl
        have htomb' : Slot.tomb ∉ acc.arr.set j (Slot.occ r) := by
          intro hmem
          rcases List.mem_or_eq_of_mem_set hmem with h | h
          · exact htomb h
          · cases h
        have hoccset : occCount (acc.arr.set j (Slot.occ r))
            = occCount acc.arr + 1 :=
          occCount_set_nonocc acc.arr j r hjarr hjnonocc
        have hsupa' : ∀ r2, Slot.occ r2 ∈ acc.arr.set j (Slot.occ r) →
            ∃ i, r2.key = keyOf i := by
          intro r2 hmem2
          rcases List.mem_or_eq_of_mem_set hmem2 with h | h
          · exact hsupa r2 h
          · injection h with h2
            subst h2
            exact ⟨i0, hri0⟩
        have hsupl' : ∀ r2, Slot.occ r2 ∈ rest → ∃ i, r2.key = keyOf i :=
          fun r2 h => hsupl r2 (List.mem_cons_of_mem _ h)
        have hone' : ∀ i : Nat,
            recCount (fun rr => rr.key == keyOf i) (acc.arr.set j (Slot.occ r))
              + recCount (fun rr => rr.key == keyOf i) rest ≤ 1 := by
          intro i
          have hset := recCount_set_nonocc (fun rr => rr.key == keyOf i)
            acc.arr j r hjarr hjnonocc
          dsimp only at hset
          have hcons : recCount (fun rr => rr.key == keyOf i) (Slot.occ r :: rest)
              = recCount (fun rr => rr.key == keyOf i) rest
                + (if (r.key == keyOf i) = true then 1 else 0) := by
            rw [recCount, List.countP_cons]
            rfl
          have h3 := hone i
          rw [hcons] at h3
          rw [hset]
          by_cases hpi : (r.key == keyOf i) = true
          · rw [if_pos hpi] at h3 ⊢
            omega
          · rw [if_neg hpi] at h3 ⊢
            omega
        obtain ⟨m2, hm2, hsz, hcap2, hks2, hvs2, hgk2, hlen2, htomb2, hocc2,
          hrec2, hmem2⟩ := ih { acc with arr := acc.arr.set j (Slot.occ r) }
            hres hks (by dsimp only; rw [List.length_set]; exact harr) htomb'
            (by dsimp only; omega) hsupa' hsupl' hone'
        dsimp only at hm2 hsz hcap2 hks2 hvs2 hgk2 hlen2 hocc2 hrec2 hmem2
        refine ⟨m2, ?_, hsz, hcap2, hks2, hvs2, hgk2, ?_, htomb2, ?_, ?_, ?_⟩
        · rw [rehash, hfhole]
          exact hm2
        · rw [hlen2, List.length_set]
        · omega
        · intro i
          have h4 := hrec2 i
          have hset := recCount_set_nonocc (fun rr => rr.key == keyOf i)
            acc.arr j r hjarr hjnonocc
          dsimp only at hset
          have hcons : recCount (fun rr => rr.key == keyOf i) (Slot.occ r :: rest)
              = recCount (fun rr => rr.key == keyOf i) rest
                + (if (r.key == keyOf i) = true then 1 else 0) := by
            rw [recCount, List.countP_cons]
            rfl
          rw [hset] at h4
          rw [hcons]
          by_cases hpi : (r.key == keyOf i) = true
          · rw [if_pos hpi] at h4 ⊢
            omega
          · rw [if_neg hpi] at h4 ⊢
            omega
        · intro r2 h
          rcases hmem2 r2 h with h | h
          · rcases List.mem_or_eq_of_mem_set h with h2 | h2
            · exact Or.inl h2
            · right; rw [h2]; exact List.mem_cons_self _ _
          · exact Or.inr (List.mem_cons_of_mem _ h)
      · -- an `ICS_EXISTS` exit would need a second copy of the head's key
        exfalso
        have hmem : Slot.occ r' ∈ acc.arr := by
          have h5 : acc.arr.getD j Slot.empty = Slot.occ r' := hslotr'
          rw [← h5, List.getD_eq_getElem acc.arr Slot.empty hjarr]
          exact List.getElem_mem _
        obtain ⟨i', hri'⟩ := hsupa r' hmem
        have hr'len : r'.key.length = 7 := by rw [hri']; exact keyOf_length i'
        rw [hga, hga, htake _ hr'len, htake _ hrlen] at heqr'
        have heqk : r'.key = r.key :=
          (ics_equal_eq_true_iff r'.key r.key r.key.length
            (hr'len.trans hrlen.symm) rfl).mp heqr'
        have h1 : 0 < recCount (fun rr => rr.key == keyOf i0) acc.arr := by
          rw [recCount, List.countP_pos_iff]
          exact ⟨Slot.occ r', hmem, by simp [heqk, hri0]⟩
        have h2 : recCount (fun rr => rr.key == keyOf i0) (Slot.occ r :: rest)
            = recCount (fun rr => rr.key == keyOf i0) rest + 1 := by
          simp [recCount, List.countP_cons, hri0]
        have h3 := hone i0
        omega

/-- One step of the filling construction: as long as the table is not yet
full, putting the next supply key succeeds (resizing on the way when the
overload check fires — which it can only do while `34 * capacity` still
fits in `uint32_t`, keeping every capacity below `2^30`) and extends the
invariant. -/
lemma fill_step (m : icsmap) (n : Nat) (hre : Reachable m) (hfi : FillInv m n)
    (hlt : n < m.capacity) : ∃ m', Reachable m' ∧ FillInv m' (n + 1) := by
  classical
  obtain ⟨hks, hvs, hgk, harr, hocc, hsz, hcap0, hcaplt, htomb, hsup, hone⟩ := hfi
  have hU : U32 = 4294967296 := rfl
  have h256 : (256 : Nat) ^ 7 = 72057594037927936 := by norm_num
  have h230 : (2 : Nat) ^ 30 = 1073741824 := by norm_num
  have h231 : (2 : Nat) ^ 31 = 2147483648 := by norm_num
  obtain ⟨m1, hm1if, hks1, hvs1, hgk1, hlen1, hocc1, hsz1, hcap1lt, htomb1,
      hsup1, hone1, hnlt1⟩ :
      ∃ m1, (if is_overloaded m then resize m true
              else some (ICS_OK, m)) = some (ICS_OK, m1) ∧
        m1.keysize = 7 ∧ m1.valsize = 1 ∧ m1.get_key = none ∧
        m1.arr.length = m1.capacity ∧ occCount m1.arr = n ∧ m1.size = n ∧
        m1.capacity < 2 ^ 30 ∧ Slot.tomb ∉ m1.arr ∧
        (∀ r, Slot.occ r ∈ m1.arr → ∃ i < n, r.key = keyOf i) ∧
        (∀ i : Nat, recCount (fun rr => rr.key == keyOf i) m1.arr ≤ 1) ∧
        n < m1.capacity := by
    cases hovb : is_overloaded m with
    | false =>
      exact ⟨m, by simp [hovb], hks, hvs, hgk, harr, hocc.trans hsz, hsz,
        hcaplt, htomb, hsup, hone, hlt⟩
    | true =>
      have hov := hovb
      rw [is_overloaded, decide_eq_true_eq, ics_percent] at hov
      have h34 : 34 ≤ m.size * 100 % U32 / m.capacity := hov
      have hmul : 34 * m.capacity ≤ m.size * 100 % U32 :=
        (Nat.le_div_iff_mul_le hcap0).mp h34
      have hmod_lt : m.size * 100 % U32 < U32 := Nat.mod_lt _ (by omega)
      have hcapb : m.capacity ≤ 126322567 := by omega
      obtain ⟨p0, hp0, hgt0, hle0⟩ :=
        Nat.exists_prime_lt_and_le_two_mul (m.capacity * 2) (by omega)
      have hex : ∃ q, m.capacity * 2 < q ∧ Nat.Prime q := ⟨p0, hgt0, hp0⟩
      have hspec1 : m.capacity * 2 < Nat.find hex := (Nat.find_spec hex).1
      have hspec2 : Nat.Prime (Nat.find hex) := (Nat.find_spec hex).2
      have hmin : ∀ q, m.capacity * 2 < q → q < Nat.find hex →
          ¬ Nat.Prime q := by
        intro q h1 h2 hq
        exact Nat.find_min hex h2 ⟨h1, hq⟩
      have hfind_le : Nat.find hex ≤ p0 := Nat.find_min' hex ⟨hgt0, hp0⟩
      have hple : Nat.find hex ≤ m.capacity * 4 := by omega
      obtain ⟨hnp, -⟩ := next_prime_least_eq (m.capacity * 2) (Nat.find hex)
        hspec1 hspec2 (by omega) hmin
      have hmod : m.capacity * 2 % U32 = m.capacity * 2 :=
        Nat.mod_eq_of_lt (by omega)
      have hres_eq : resize m true = rehash { m with
          capacity := ics_next_prime (m.capacity * 2 % U32),
          arr := List.replicate (ics_next_prime (m.capacity * 2 % U32))
            Slot.empty } m.arr := rfl
      rw [hmod, hnp] at hres_eq
      obtain ⟨m2, hm2, hsz2, hcap2, hks2, hvs2, hgk2, hlen2, htomb2, hocc2,
          hrec2, hmem2⟩ :=
        rehash_fill m.arr
          { m with capacity := Nat.find hex,
                   arr := List.replicate (Nat.find hex) Slot.empty }
          hgk hks
          (by show (List.replicate (Nat.find hex) Slot.empty).length
                = Nat.find hex
              rw [List.length_replicate])
          (by show Slot.tomb ∉ List.replicate (Nat.find hex) Slot.empty
              intro h
              cases List.eq_of_mem_replicate h)
          (by show occCount (List.replicate (Nat.find hex) Slot.empty)
                + occCount m.arr < Nat.find hex
              rw [occCount_replicate]
              omega)
          (by intro r hr
              cases List.eq_of_mem_replicate
                (show Slot.occ r ∈ List.replicate (Nat.find hex) Slot.empty
                  from hr))
          (fun r hr => (hsup r hr).imp fun i hi => hi.2)
          (by intro i
              show recCount (fun rr => rr.key == keyOf i)
                  (List.replicate (Nat.find hex) Slot.empty)
                + recCount (fun rr => rr.key == keyOf i) m.arr ≤ 1
              rw [recCount_replicate]
              have := hone i
              omega)
      refine ⟨m2, ?_, hks2.trans hks, hvs2.trans hvs, hgk2.trans hgk, ?_, ?_,
        hsz2.trans hsz, ?_, htomb2, ?_, ?_, ?_⟩
      · rw [if_pos rfl, hres_eq]
        exact hm2
      · rw [hlen2, hcap2]
        show (List.replicate (Nat.find hex) Slot.empty).length = Nat.find hex
        rw [List.length_replicate]
      · rw [hocc2]
        show occCount (List.replicate (Nat.find hex) Slot.empty)
          + occCount m.arr = n
        rw [occCount_replicate]
        omega
      · rw [hcap2]
        show Nat.find hex < 2 ^ 30
        omega
      · intro r hr
        rcases hmem2 r hr with h | h
        · cases List.eq_of_mem_replicate
            (show Slot.occ r ∈ List.replicate (Nat.find hex) Slot.empty from h)
        · obtain ⟨i, hi, hk⟩ := hsup r h
          exact ⟨i, hi, hk⟩
      · intro i
        rw [hrec2 i]
        show recCount (fun rr => rr.key == keyOf i)
            (List.replicate (Nat.find hex) Slot.empty)
          + recCount (fun rr => rr.key == keyOf i) m.arr ≤ 1
        rw [recCount_replicate]
        have := hone i
        omega
      · rw [hcap2]
        show n < Nat.find hex
        omega
  have hcap1pos : 0 < m1.capacity := by omega
  have hga1 : ∀ x : List Nat, get_key m1 x = x.take 7 := by
    intro x; simp [get_key, hgk1, hks1]
  have htake7 : ∀ x : List Nat, x.length = 7 → x.take 7 = x := by
    intro x hx; rw [← hx]; simp
  have hstart1 : hash m1 (get_key m1 (keyOf n)) < m1.capacity :=
    Nat.mod_lt _ hcap1pos
  have hnonocc1 : ∃ j < m1.capacity, is_occ (slotAt m1 j) = false := by
    have h1 : occCount m1.arr < m1.arr.length := by omega
    obtain ⟨j, hj, hocc⟩ := exists_nonocc m1.arr h1
    exact ⟨j, by omega, hocc⟩
  obtain ⟨st, j, hfh⟩ := find_hole_loop_total m1 (get_key m1 (keyOf n))
    (hash m1 (get_key m1 (keyOf n))) hstart1 hlen1 hnonocc1
  have hfhole : find_hole m1 (keyOf n) = some (st, j) := hfh
  obtain ⟨T, hTfuel, hjT, hpre, hcase⟩ := find_hole_loop_inv m1
    (get_key m1 (keyOf n)) m1.capacity (hash m1 (get_key m1 (keyOf n)))
    st j hstart1 hfh
  have hjlt : j < m1.capacity := by rw [hjT]; exact probe_lt m1 _ _ hcap1pos
  have hjarr : j < m1.arr.length := by omega
  have hstOK : st = ICS_OK ∧
      (slotAt m1 j = Slot.empty ∨ slotAt m1 j = Slot.tomb) := by
    rcases hcase with h | ⟨hstEX, r', hslotr', heqr'⟩
    · exact h
    · exfalso
      have hmem : Slot.occ r' ∈ m1.arr := by
        have h5 : m1.arr.getD j Slot.empty = Slot.occ r' := hslotr'
        rw [← h5, List.getD_eq_getElem m1.arr Slot.empty hjarr]
        exact List.getElem_mem _
      obtain ⟨i', hi'n, hri'⟩ := hsup1 r' hmem
      have hr'len : r'.key.length = 7 := by rw [hri']; exact keyOf_length i'
      rw [hga1, hga1, htake7 _ hr'len, htake7 _ (keyOf_length n)] at heqr'
      have heqk : r'.key = keyOf n :=
        (ics_equal_eq_true_iff r'.key (keyOf n) (keyOf n).length
          (hr'len.trans (keyOf_length n).symm) rfl).mp heqr'
      have hin : i' = n := keyOf_inj i' n (by omega) (by omega)
        (by rw [← hri', heqk])
      omega
  obtain ⟨hstOKeq, hslotj⟩ := hstOK
  subst hstOKeq
  have hjnonocc : is_occ (m1.arr.getD j Slot.empty) = false := by
    rcases hslotj with he | ht
    · rw [slotAt] at he; rw [he]; rfl
    · rw [slotAt] at ht; rw [ht]; rfl
  have hentry : init_map_entry m1 (keyOf n) [0]
      = { key := keyOf n, val := [0] } := by
    rw [init_map_entry, hks1, hvs1]
    simp [htake7 _ (keyOf_length n)]
  set m' : icsmap := { m1 with
    arr := m1.arr.set j (Slot.occ { key := keyOf n, val := [0] }),
    size := m1.size + 1 } with hmprime
  have hput : icsmap_put m (keyOf n) [0] true true = some (ICS_OK, m') := by
    rw [icsmap_put, hm1if]
    dsimp only
    rw [if_pos rfl, hfhole]
    dsimp only
    rw [if_pos rfl, hentry]
  refine ⟨m', Reachable.put m (keyOf n) [0] m' hre hput, ?_⟩
  rw [FillInv]
  refine ⟨hks1, hvs1, hgk1, ?_, ?_, ?_, ?_, ?_, ?_, ?_, ?_⟩
  · rw [hmprime]
    show (m1.arr.set j (Slot.occ { key := keyOf n, val := [0] })).length
      = m1.capacity
    rw [List.length_set]
    exact hlen1
  · rw [hmprime]
    show occCount (m1.arr.set j (Slot.occ { key := keyOf n, val := [0] }))
      = m1.size + 1
    rw [occCount_set_nonocc m1.arr j _ hjarr hjnonocc, hocc1, hsz1]
  · rw [hmprime]
    show m1.size + 1 = n + 1
    rw [hsz1]
  · rw [hmprime]
    show 0 < m1.capacity
    omega
  · rw [hmprime]
    show m1.capacity < 2 ^ 30
    exact hcap1lt
  · rw [hmprime]
    intro hmem
    have hmem' : Slot.tomb
        ∈ m1.arr.set j (Slot.occ { key := keyOf n, val := [0] }) := hmem
    rcases List.mem_or_eq_of_mem_set hmem' with h | h
    · exact htomb1 h
    · cases h
  · rw [hmprime]
    intro r2 hmem2
    have hmem2' : Slot.occ r2
        ∈ m1.arr.set j (Slot.occ { key := keyOf n, val := [0] }) := hmem2
    rcases List.mem_or_eq_of_mem_set hmem2' with h | h
    · obtain ⟨i, hi, hk⟩ := hsup1 r2 h
      exact ⟨i, by omega, hk⟩
    · injection h with h2
      subst h2
      exact ⟨n, by omega, rfl⟩
  · rw [hmprime]
    intro i
    show recCount (fun rr => rr.key == keyOf i)
        (m1.arr.set j (Slot.occ { key := keyOf n, val := [0] })) ≤ 1
    have hset := recCount_set_nonocc (fun rr => rr.key == keyOf i)
      m1.arr j { key := keyOf n, val := [0] } hjarr hjnonocc
    dsimp only at hset
    rw [hset]
    by_cases hpi : (keyOf n == keyOf i) = true
    · rw [if_pos hpi]
      have hni : keyOf n = keyOf i := eq_of_beq hpi
      have hz : recCount (fun rr => rr.key == keyOf i) m1.arr = 0 := by
        by_contra hnz
        have hpos : 0 < recCount (fun rr => rr.key == keyOf i) m1.arr :=
          Nat.pos_of_ne_zero hnz
        rw [recCount, List.countP_pos_iff] at hpos
        obtain ⟨s, hsmem, hsp⟩ := hpos
        rcases s with _ | _ | r2
        · simp at hsp
        · simp at hsp
        · have hk2 : r2.key = keyOf i := by
            have hb : (r2.key == keyOf i) = true := by simpa using hsp
            exact eq_of_beq hb
          obtain ⟨i2, hi2, hk3⟩ := hsup1 r2 hsmem
          have hi2n : i2 = n := keyOf_inj i2 n (by omega) (by omega)
            (by rw [← hk3, hk2, ← hni])
          omega
      rw [hz]
    · rw [if_neg hpi]
      have := hone1 i
      omega

/-- The filling construction runs forever or fills the table: for every `n`,
either some reachable state carries the invariant at `n`, or some reachable
state is already completely full. -/
lemma fill_progress (n : Nat) :
    (∃ m, Reachable m ∧ FillInv m n) ∨
    (∃ m n0, Reachable m ∧ FillInv m n0 ∧ m.size = m.capacity) := by
  induction n with
  | zero =>
    left
    refine ⟨icsmap_init ⟨7, 1, none⟩, Reachable.init _, ?_⟩
    rw [FillInv]
    refine ⟨rfl, rfl, rfl, by decide, by decide, rfl, by decide, by decide,
      by decide, ?_, ?_⟩
    · intro r hr
      cases List.eq_of_mem_replicate
        (show Slot.occ r ∈ List.replicate 13 Slot.empty from hr)
    · intro i
      show recCount (fun rr => rr.key == keyOf i)
        (List.replicate 13 Slot.empty) ≤ 1
      rw [recCount_replicate]
      omega
  | succ n ih =>
    rcases ih with ⟨m, hre, hfi⟩ | hr
    · rcases Nat.lt_or_ge n m.capacity with hltc | hgec
      · obtain ⟨m', hre', hfi'⟩ := fill_step m n hre hfi hltc
        exact Or.inl ⟨m', hre', hfi'⟩
      · right
        have hfull : m.size = m.capacity := by
          obtain ⟨hks, hvs, hgk, harr, hocc, hsz, _, _, _, _, _⟩ := hfi
          have hle : occCount m.arr ≤ m.arr.length := by
            rw [occCount]; exact List.countP_le_length _
          omega
        exact ⟨m, n, hre, hfi, hfull⟩
    · exact Or.inr hr

/-- Claim C6, counterexample to the claimed strict `count < capacity`: a
state reachable from initialization by put operations alone in which every
slot is Occupied (`count = capacity`), so the `find_hole` loop of a further
put scans mismatching live slots forever (`none` = the C loop never exits).
The overload check compares `count * 100 / capacity` in `uint32_t`; once
`34 * capacity` exceeds `2^32` the quotient can never reach 34 again, so
resizes stop while inserts keep succeeding until the table is full. -/
theorem C6_counterexample :
    ∃ m, Reachable m ∧ ¬ m.size < m.capacity ∧
      find_hole m (keyOf m.size) = none := by
  rcases fill_progress (2 ^ 30) with ⟨m, hre, hfi⟩ | ⟨m, n0, hre, hfi, hfull⟩
  · exfalso
    obtain ⟨hks, hvs, hgk, harr, hocc, hsz, hc0, hclt, _, _, _⟩ := hfi
    have hle : occCount m.arr ≤ m.arr.length := by
      rw [occCount]; exact List.countP_le_length _
    omega
  · obtain ⟨hks, hvs, hgk, harr, hocc, hsz, hc0, hclt, htb, hsup, hone⟩ := hfi
    have h256 : (256 : Nat) ^ 7 = 72057594037927936 := by norm_num
    have h230 : (2 : Nat) ^ 30 = 1073741824 := by norm_num
    refine ⟨m, hre, by omega, ?_⟩
    have hga : ∀ x : List Nat, get_key m x = x.take 7 := by
      intro x; simp [get_key, hgk, hks]
    have htake7 : ∀ x : List Nat, x.length = 7 → x.take 7 = x := by
      intro x hx; rw [← hx]; simp
    have hfullocc : occCount m.arr = m.arr.length := by omega
    show find_hole_loop m (get_key m (keyOf m.size))
      (hash m (get_key m (keyOf m.size))) m.capacity = none
    apply find_hole_loop_all_occ_none
    · intro j hj
      rw [occ_mismatch]
      obtain ⟨r, hr⟩ := all_occ_of_full m.arr hfullocc j (by omega)
      have hrs : slotAt m j = Slot.occ r := hr
      rw [hrs]
      dsimp only
      have hmem : Slot.occ r ∈ m.arr := by
        rw [← hr, List.getD_eq_getElem m.arr Slot.empty (by omega)]
        exact List.getElem_mem _
      obtain ⟨i, hi, hk⟩ := hsup r hmem
      have hrlen : r.key.length = 7 := by rw [hk]; exact keyOf_length i
      rw [hga, hga, htake7 _ hrlen, htake7 _ (keyOf_length m.size)]
      have hne : ics_equal r.key (keyOf m.size) (keyOf m.size).length
          = false := by
        rcases hq : ics_equal r.key (keyOf m.size) (keyOf m.size).length
          with _ | _
        · rfl
        · exfalso
          have heqk : r.key = keyOf m.size :=
            (ics_equal_eq_true_iff _ _ _
              (hrlen.trans (keyOf_length m.size).symm) rfl).mp hq
          have hieq : i = m.size := keyOf_inj i m.size (by omega) (by omega)
            (by rw [← hk, heqk])
          omega
      rw [hne]
      rfl
    · exact Nat.mod_lt _ (by omega)
